import Mathlib

/-!
# pyBT — verification of the behaviour-tree core

Shallow embedding of the pyBT repository's behaviour-tree core:

* `Status`, `ParallelPolicy` — modelled from the spec (the `common` module is
  absent from the sources; only its callers are present).
* `BT` — tree nodes with their mutable per-node state (status, current child
  index, leaf script) embedded in the tree value.
* `BT.stop` — translation of `Composite.stop` (src/nodes/composite.py),
  `Selector.stop` (src/nodes/selector.py), `Parallel.stop`
  (src/pybt/nodes/parallel.py) and `Decorator.stop`
  (src/pybt/nodes/decorator.py); leaf stop is modelled from the spec.
* `BT.tick` — translation of `Sequence.tick` (src/nodes/sequence.py),
  `Selector.tick` (src/nodes/selector.py), `Parallel.tick`
  (src/pybt/nodes/parallel.py) and `Decorator.tick`
  (src/pybt/nodes/decorator.py); leaf tick is modelled from the spec (§4.1).

Also embedded, for the blackboard and child-management claims:
`Composite.add_child` / `prepend_child` / `insert_child`,
`Client.register_key` (src/pybt/bb/client.py) and
`ActivityStream.push` (src/pyBT/bb/_internal/activityStream.py).
-/

namespace PyBT

/-- Modelled from the spec (§3): the 4-value result type of the missing
`common` module. `INVALID` is both the never-ticked and the force-reset
value. -/
inductive Status where
  | success
  | failure
  | running
  | invalid
deriving DecidableEq, Repr

/-- Modelled from the spec (§4.4) and the uses in src/pybt/nodes/parallel.py:
the missing `common.ParallelPolicy` classes. `SuccessOnSelected` holds the
selected children; the Python stores object references into the parallel's
children list, modelled here as indices into that list. -/
inductive ParallelPolicy where
  | successOnAll (synchronise : Bool)
  | successOnOne
  | successOnSelected (synchronise : Bool) (selected : List Nat)
deriving DecidableEq, Repr

/-- `policy.synchronise`: `SuccessOnAll` and `SuccessOnSelected` may be
synchronised; `SuccessOnOne` is never synchronised (spec §4.4). -/
def ParallelPolicy.synchronise : ParallelPolicy → Bool
  | .successOnAll b => b
  | .successOnOne => false
  | .successOnSelected b _ => b

/-- A behaviour-tree node together with its per-node mutable state.

* a leaf (`behaviour.Behaviour` subclass doing its own work) carries its
  current status and a script: the statuses its `update()` will report on
  successive ticks (the external world's answers).  Modelled from the spec
  (§4.1); `behaviour.py` is absent from the sources.
* `seq` / `sel` carry the `memory` flag, status, `current_child` and
  children.  The Python `current_child` is an object reference resolved with
  `children.index(...)`; children of one composite are distinct objects, so it
  is modelled as an index.
* `par` carries the policy, status, `current_child` and children.
* `deco` carries the decorator's `update` decision rule as a function of the
  decorated child's post-tick status (this covers the stateless
  decorator subclasses: `Inverter`, the X-is-Y family, ...), its status and
  the single decorated child. -/
inductive BT where
  | leaf (status : Status) (script : List Status)
  | seq (memory : Bool) (status : Status) (cur : Option Nat) (children : List BT)
  | sel (memory : Bool) (status : Status) (cur : Option Nat) (children : List BT)
  | par (policy : ParallelPolicy) (status : Status) (cur : Option Nat) (children : List BT)
  | deco (f : Status → Status) (status : Status) (child : BT)

/-- The node's current status (`self.status`). -/
def BT.status : BT → Status
  | .leaf s _ => s
  | .seq _ s _ _ => s
  | .sel _ s _ _ => s
  | .par _ s _ _ => s
  | .deco _ s _ => s

/-- The composite's `current_child` (as an index); `none` for leaves and
decorators. -/
def BT.cur : BT → Option Nat
  | .leaf _ _ => none
  | .seq _ _ c _ => c
  | .sel _ _ c _ => c
  | .par _ _ c _ => c
  | .deco _ _ _ => none

/-- The node's children list (a decorator's single child as a one-element
list, mirroring `Decorator.__init__` storing it in `self.children`). -/
def BT.children : BT → List BT
  | .leaf _ _ => []
  | .seq _ _ _ cs => cs
  | .sel _ _ _ cs => cs
  | .par _ _ _ cs => cs
  | .deco _ _ c => [c]

mutual

/-- `stop(new_status)`.

* leaf — `Behaviour.stop`, modelled from the spec (§4.1): run the leave step
  and assign the new status.
* `seq`/`sel` — `Composite.stop` (src/nodes/composite.py:96-119): on INVALID,
  clear `current_child` and stop every child with INVALID; otherwise only the
  status changes.  `Selector.stop` (src/nodes/selector.py:107-121) clears
  `current_child` on INVALID before delegating, which `Composite.stop` does
  again: same result.
* `par` — `Parallel.stop` (src/pybt/nodes/parallel.py:139-154): stop every
  RUNNING child with INVALID, then `Composite.stop`.  On INVALID the latter
  stops every child with INVALID once more; `stop INVALID` is idempotent
  (`stop_invalid_stop_invalid` below), so the net per-child effect is a single
  unconditional `stop INVALID`, as written here.
* `deco` — `Decorator.stop` (src/pybt/nodes/decorator.py:165-181): on INVALID
  stop the child with INVALID first; then, if the child is (still) RUNNING,
  stop it with INVALID.  After a `stop INVALID` the child's status is INVALID,
  so the second conditional never fires in the INVALID branch. -/
def stop (new : Status) : BT → BT
  | .leaf _ scr => .leaf new scr
  | .seq m _ cur cs =>
      if new = .invalid then .seq m new none (stopList cs) else .seq m new cur cs
  | .sel m _ cur cs =>
      if new = .invalid then .sel m new none (stopList cs) else .sel m new cur cs
  | .par p _ cur cs =>
      if new = .invalid then .par p new none (stopList cs)
      else .par p new cur (sweepRunning cs)
  | .deco f _ c =>
      if new = .invalid then .deco f new (stop .invalid c)
      else .deco f new (if c.status = .running then stop .invalid c else c)

/-- Stop every child with INVALID (`Composite.stop`, INVALID branch). -/
def stopList : List BT → List BT
  | [] => []
  | c :: rest => stop .invalid c :: stopList rest

/-- Stop every RUNNING child with INVALID (`Parallel.stop` sweep). -/
def sweepRunning : List BT → List BT
  | [] => []
  | c :: rest => (if c.status = .running then stop .invalid c else c) :: sweepRunning rest

/-- Stop every child whose status is not INVALID with INVALID (the reset
loops of `Sequence.tick`, `Parallel.tick` and the invalidation sweep of
`Selector.tick`). -/
def stopNIList : List BT → List BT
  | [] => []
  | c :: rest => (if c.status ≠ .invalid then stop .invalid c else c) :: stopNIList rest

end

/-- `Selector.tick`'s priority-interruption sweep
(src/nodes/selector.py:89-96): leave children up to and including index `j`
alone; every later child whose status is not INVALID is stopped with
INVALID. -/
def invalidateAfter : Nat → List BT → List BT
  | _, [] => []
  | 0, c :: rest => c :: stopNIList rest
  | j+1, c :: rest => c :: invalidateAfter j rest

mutual

/-- Node-count weight of a tree, used as the termination measure of `tick`
(every `stop` variant preserves it exactly). -/
def wt : BT → Nat
  | .leaf _ _ => 1
  | .seq _ _ _ cs => wtl cs + 1
  | .sel _ _ _ cs => wtl cs + 1
  | .par _ _ _ cs => wtl cs + 1
  | .deco _ _ c => wt c + 1

/-- List version of `wt`. -/
def wtl : List BT → Nat
  | [] => 0
  | c :: rest => wt c + wtl rest + 1

end

mutual

theorem wt_stop (new : Status) (t : BT) : wt (stop new t) = wt t := by
  cases t with
  | leaf s scr => simp [stop, wt]
  | seq m s cur cs =>
      have h1 := wtl_stopList cs
      by_cases h : new = .invalid <;> simp [stop, h, wt, h1]
  | sel m s cur cs =>
      have h1 := wtl_stopList cs
      by_cases h : new = .invalid <;> simp [stop, h, wt, h1]
  | par p s cur cs =>
      have h1 := wtl_stopList cs
      have h2 := wtl_sweepRunning cs
      by_cases h : new = .invalid <;> simp [stop, h, wt, h1, h2]
  | deco f s c =>
      have h1 := wt_stop .invalid c
      by_cases h : new = .invalid
      · simp [stop, h, wt, h1]
      · by_cases h2 : c.status = .running <;> simp [stop, h, h2, wt, h1]

theorem wtl_stopList (l : List BT) : wtl (stopList l) = wtl l := by
  cases l with
  | nil => simp [stopList]
  | cons c rest =>
      have h1 := wt_stop .invalid c
      have h2 := wtl_stopList rest
      simp [stopList, wtl, h1, h2]

theorem wtl_sweepRunning (l : List BT) : wtl (sweepRunning l) = wtl l := by
  cases l with
  | nil => simp [sweepRunning]
  | cons c rest =>
      have h1 := wt_stop .invalid c
      have h2 := wtl_sweepRunning rest
      by_cases h : c.status = .running <;> simp [sweepRunning, h, wtl, h1, h2]

theorem wtl_stopNIList (l : List BT) : wtl (stopNIList l) = wtl l := by
  cases l with
  | nil => simp [stopNIList]
  | cons c rest =>
      have h1 := wt_stop .invalid c
      have h2 := wtl_stopNIList rest
      by_cases h : c.status = .invalid <;> simp [stopNIList, h, wtl, h1, h2]

end

/-- A tick is a fresh entry (re-initialising) for a `Sequence` when
`self.status != RUNNING or not self.memory` (src/nodes/sequence.py:53). -/
def seqFresh (m : Bool) (s : Status) : Bool :=
  if s = Status.running then !m else true

/-- Index of the first child with the given status (`next(child for child in
self.children if child.status == ...)` in `Parallel.tick`). -/
def firstIdxWith (st : Status) : List BT → Option Nat
  | [] => none
  | c :: rest =>
      if c.status = st then some 0 else (firstIdxWith st rest).map (· + 1)

/-- Index of the last child with the given status (`successful[-1]` in
`Parallel.tick`'s `SuccessOnOne` branch). -/
def lastIdxWith (st : Status) : List BT → Option Nat
  | [] => none
  | c :: rest =>
      match lastIdxWith st rest with
      | some i => some (i + 1)
      | none => if c.status = st then some 0 else none

/-- `all([c.status == st for c in l])`. -/
def allStatus (st : Status) (l : List BT) : Bool :=
  l.all fun c => c.status = st

/-- Status of the child at index `i` (INVALID when out of range; the
`SuccessOnSelected` indices are validated to be in range). -/
def statusAt (l : List BT) (i : Nat) : Status :=
  match l.get? i with
  | some c => c.status
  | none => .invalid

/-- `Parallel.validate_policy_configuration`
(src/pybt/nodes/parallel.py:156-178): `SuccessOnSelected` needs a non-empty
selection of actual children (membership modelled as index-in-range); the
other policies always validate. -/
def validPolicy : ParallelPolicy → Nat → Bool
  | .successOnSelected _ selected, n => !selected.isEmpty && selected.all fun i => i < n
  | _, _ => true

/-- The "determine new status" part of `Parallel.tick`
(src/pybt/nodes/parallel.py:108-130), applied to the post-tick children:
`current_child` is first set to the last child; any child with status FAILURE
makes the parallel FAILURE with `current_child` the first such child;
otherwise the policy decides SUCCESS (with its own `current_child` choice) or
the parallel stays RUNNING. -/
def parDecide (p : ParallelPolicy) (cs1 : List BT) : Status × Option Nat :=
  match firstIdxWith .failure cs1 with
  | some i => (.failure, some i)
  | none =>
    match p with
    | .successOnAll _ =>
        if allStatus .success cs1 then (.success, some (cs1.length - 1))
        else (.running, some (cs1.length - 1))
    | .successOnOne =>
        match lastIdxWith .success cs1 with
        | some i => (.success, some i)
        | none => (.running, some (cs1.length - 1))
    | .successOnSelected _ selected =>
        if selected.all (fun i => statusAt cs1 i = Status.success)
        then (.success, some (selected.getLastD 0))
        else (.running, some (cs1.length - 1))

mutual

/-- One tick.

* leaf — modelled from the spec (§4.1): if not RUNNING run the enter step;
  `update()` reports the script's next status; if it is not RUNNING run the
  leave step with it; it becomes the node's status either way.
* `seq` — `Sequence.tick` (src/nodes/sequence.py:42-89): on fresh entry
  (`seqFresh`) every child not already INVALID is stopped with INVALID and
  ticking starts at index 0, otherwise at `current_child`'s index; see
  `seqLoop`.  With no children: `current_child = None` and `stop(SUCCESS)`.
* `sel` — `Selector.tick` (src/nodes/selector.py:36-105): with no children,
  `current_child = None` and `stop(FAILURE)`.  If not RUNNING,
  `current_child` is reset to the first child.  With memory the loop starts
  at `current_child`'s index and earlier children are stopped with INVALID;
  without memory it starts at 0; see `selLoop` / `selStep`.
* `par` — `Parallel.tick` (src/pybt/nodes/parallel.py:69-137): an invalid
  policy configuration raises before any mutation (modelled: the node is
  returned unchanged); if not RUNNING every child not already INVALID is
  stopped with INVALID; with no children `stop(SUCCESS)`; see `parLoop` /
  `parStep`.
* `deco` — `Decorator.tick` (src/pybt/nodes/decorator.py:139-163): tick the
  child, compute the decorator's own status from the child's post-tick
  status; if it is not RUNNING run `Decorator.stop` with it (which stops a
  still-RUNNING child with INVALID). -/
def tick : BT → BT
  | .leaf _ scr => .leaf (scr.headD .failure) scr.tail
  | .seq m s cur cs =>
      if cs.isEmpty then .seq m .success none []
      else if seqFresh m s then seqStep m 0 cs.length (stopNIList cs)
      else seqStep m (cur.getD 0) cs.length cs
  | .sel m s cur cs =>
      if cs.isEmpty then .sel m .failure none []
      else
        -- on entry (not RUNNING) current_child is reset to the first child;
        -- `previous` is read after that reset (src/nodes/selector.py:47-51,81)
        selStep m (if s = .running then cur else some 0) cs.length cs
  | .par p s cur cs =>
      if !(validPolicy p cs.length) then .par p s cur cs
      else if cs.isEmpty then .par p .success none []
      else if s = .running then parStep p cs
      else parStep p (stopNIList cs)
  | .deco f _ c =>
      let c1 := tick c
      let newStatus := f c1.status
      if newStatus = .running then .deco f .running c1
      else
        let c2 := if newStatus = .invalid then stop .invalid c1 else c1
        let c3 := if c2.status = .running then stop .invalid c2 else c2
        .deco f newStatus c3
termination_by t => 3 * wt t
decreasing_by
  all_goals simp_wf
  all_goals ((try simp [wt, wtl, wtl_stopNIList]) <;> omega)

/-- The child-ticking loop of `Sequence.tick` (src/nodes/sequence.py:74-86),
on the (already reset, if fresh) children, skipping the first `skip`
children (the resume index).  Returns the status of the first ticked child
whose tick did not end in SUCCESS (or `none` if every ticked child
succeeded), the updated children, and the number of successfully ticked
children before the halt (so the final `current_child` index is
`skip + count`, the position where the loop stopped). -/
def seqLoop : Nat → List BT → Option Status × List BT × Nat
  | _, [] => (none, [], 0)
  | skip+1, c :: rest =>
      let r := seqLoop skip rest
      (r.1, c :: r.2.1, r.2.2)
  | 0, c :: rest =>
      let c1 := tick c
      if c1.status = .success then
        let r := seqLoop 0 rest
        (r.1, c1 :: r.2.1, r.2.2 + 1)
      else (some c1.status, c1 :: rest, 0)
termination_by skip l => 3 * wtl l + 1
decreasing_by
  all_goals simp_wf
  all_goals ((try simp [wt, wtl, wtl_stopNIList]) <;> omega)

/-- Assembles `Sequence.tick`'s result from `seqLoop`'s outcome
(src/nodes/sequence.py:74-89).  A halting child's status becomes the
sequence's status, with `current_child` where the loop stopped; if every
ticked child succeeded, `self.stop(SUCCESS)` with `current_child` left on
the last child. -/
def seqStep (m : Bool) (idx : Nat) (origLen : Nat) (l : List BT) : BT :=
  match seqLoop idx l with
  | (some st, cs', cnt) => .seq m st (some (idx + cnt)) cs'
  | (none, cs', _) => .seq m .success (some (origLen - 1)) cs'
termination_by 3 * wtl l + 2
decreasing_by
  all_goals simp_wf
  all_goals ((try simp [wt, wtl, wtl_stopNIList]) <;> omega)

/-- The child-ticking loop of `Selector.tick` (src/nodes/selector.py:70-98).
The first `skip` children (those before the remembered starting point) are
skipped; with memory they are stopped with INVALID on the way
(src/nodes/selector.py:71-76).  The first ticked child whose tick ends
RUNNING or SUCCESS halts the loop; later children are left untouched here
(the invalidation sweep is applied afterwards, in `selStep`).  Returns the
halting child's absolute index and status (or `none` if every child was
ticked and failed) and the updated children. -/
def selLoop (mem : Bool) : Nat → List BT → Option (Nat × Status) × List BT
  | _, [] => (none, [])
  | skip+1, c :: rest =>
      let r := selLoop mem skip rest
      ((r.1.map fun q => (q.1 + 1, q.2)),
       (if mem then stop .invalid c else c) :: r.2)
  | 0, c :: rest =>
      let c1 := tick c
      if c1.status = .running ∨ c1.status = .success then (some (0, c1.status), c1 :: rest)
      else
        let r := selLoop mem 0 rest
        ((r.1.map fun q => (q.1 + 1, q.2)), c1 :: r.2)
termination_by skip l => 3 * wtl l + 1
decreasing_by
  all_goals simp_wf
  all_goals ((try simp [wt, wtl, wtl_stopNIList]) <;> omega)

/-- Assembles `Selector.tick`'s result from `selLoop`'s outcome
(src/nodes/selector.py:81-105).  `prev` is the `previous` variable.  If a
child became the new active child and differs from `previous`, every child
after it not already INVALID is stopped with INVALID, and the selector
adopts the child's status.  If all children failed, the selector fails with
`current_child` the last child. -/
def selStep (m : Bool) (prev : Option Nat) (origLen : Nat) (l : List BT) : BT :=
  match selLoop m (if m then prev.getD 0 else 0) l with
  | (some (j, st), cs') =>
      .sel m st (some j) (if prev = some j then cs' else invalidateAfter j cs')
  | (none, cs') => .sel m .failure (some (origLen - 1)) cs'
termination_by 3 * wtl l + 2
decreasing_by
  all_goals simp_wf
  all_goals ((try simp [wt, wtl, wtl_stopNIList]) <;> omega)

/-- The "process them all first" loop of `Parallel.tick`
(src/pybt/nodes/parallel.py:102-106): every child is ticked, except that a
synchronised policy skips children already SUCCESS. -/
def parLoop (sync : Bool) : List BT → List BT
  | [] => []
  | c :: rest =>
      (if sync = true ∧ c.status = .success then c else tick c) :: parLoop sync rest
termination_by l => 3 * wtl l + 1
decreasing_by
  all_goals simp_wf
  all_goals ((try simp [wt, wtl, wtl_stopNIList]) <;> omega)

/-- The remainder of `Parallel.tick` (src/pybt/nodes/parallel.py:101-137)
after the reset/empty-children handling: tick the children (`parLoop`),
decide the new status and `current_child` (`parDecide`), and if the parallel
resolved (its new status is not RUNNING) run `Parallel.stop`, which stops
every still-RUNNING child with INVALID. -/
def parStep (p : ParallelPolicy) (l : List BT) : BT :=
  let cs1 := parLoop p.synchronise l
  let d := parDecide p cs1
  if d.1 = .running then .par p .running d.2 cs1
  else .par p d.1 d.2 (sweepRunning cs1)
termination_by 3 * wtl l + 2
decreasing_by
  all_goals simp_wf
  all_goals ((try simp [wt, wtl, wtl_stopNIList]) <;> omega)

end

/-- The driver's operations on the root (spec §5/§6): tick it, or force-stop
it — interruption is expressed by forcing the status to INVALID. -/
inductive Op where
  | tickRoot
  | stopRoot
deriving DecidableEq, Repr

/-- Apply one driver operation to the root. -/
def applyOp : Op → BT → BT
  | .tickRoot, t => tick t
  | .stopRoot, t => stop .invalid t

/-- Apply a sequence of driver operations to the root, oldest first. -/
def applyOps : List Op → BT → BT
  | [], t => t
  | op :: ops, t => applyOps ops (applyOp op t)

mutual

/-- No node in the tree has status RUNNING. -/
def noRunB : BT → Bool
  | .leaf s _ => !decide (s = .running)
  | .seq _ s _ cs => !decide (s = .running) && noRunL cs
  | .sel _ s _ cs => !decide (s = .running) && noRunL cs
  | .par _ s _ cs => !decide (s = .running) && noRunL cs
  | .deco _ s c => !decide (s = .running) && noRunB c

/-- List version of `noRunB`. -/
def noRunL : List BT → Bool
  | [] => true
  | c :: rest => noRunB c && noRunL rest

end

mutual

/-- Every node in the tree has status INVALID. -/
def allInvalidB : BT → Bool
  | .leaf s _ => decide (s = .invalid)
  | .seq _ s _ cs => decide (s = .invalid) && allInvalidL cs
  | .sel _ s _ cs => decide (s = .invalid) && allInvalidL cs
  | .par _ s _ cs => decide (s = .invalid) && allInvalidL cs
  | .deco _ s c => decide (s = .invalid) && allInvalidB c

/-- List version of `allInvalidB`. -/
def allInvalidL : List BT → Bool
  | [] => true
  | c :: rest => allInvalidB c && allInvalidL rest

end

mutual

/-- The tree contains no `Parallel` node. -/
def noParB : BT → Bool
  | .leaf _ _ => true
  | .seq _ _ _ cs => noParL cs
  | .sel _ _ _ cs => noParL cs
  | .par _ _ _ _ => false
  | .deco _ _ c => noParB c

/-- List version of `noParB`. -/
def noParL : List BT → Bool
  | [] => true
  | c :: rest => noParB c && noParL rest

end

mutual

/-- The RUNNING nodes of the tree form one contiguous path starting at the
root: the root itself is RUNNING and at most one child's subtree contains a
RUNNING node; if one does, that child is itself the root of such a path (so
the path descends without gaps to a single tip). -/
def pathRunB : BT → Bool
  | .leaf s _ => decide (s = .running)
  | .seq _ s _ cs => decide (s = .running) && pathChildren cs
  | .sel _ s _ cs => decide (s = .running) && pathChildren cs
  | .par _ s _ cs => decide (s = .running) && pathChildren cs
  | .deco _ s c => decide (s = .running) && (noRunB c || pathRunB c)

/-- At most one of the children contains RUNNING nodes, and that child (if
any) roots a running path; the others are RUNNING-free. -/
def pathChildren : List BT → Bool
  | [] => true
  | c :: rest => (noRunB c && pathChildren rest) || (pathRunB c && noRunL rest)

end

/-- The property claimed of every tick outcome: the RUNNING-status node set
is either empty or exactly one contiguous path from the root to a single
tip. -/
def runningIsPathB (t : BT) : Bool := noRunB t || pathRunB t

/-- All children except the one at index `i` are RUNNING-free. -/
def othersNoRun : Nat → List BT → Bool
  | _, [] => true
  | 0, _ :: rest => noRunL rest
  | i+1, c :: rest => noRunB c && othersNoRun i rest

mutual

/-- The inductive invariant maintained by `tick` and `stop` on
`Parallel`-free trees: every subtree is well-formed; a node that is not
RUNNING has a RUNNING-free subtree; a RUNNING composite's `current_child` is
a valid index and all its other children are RUNNING-free. -/
def wfB : BT → Bool
  | .leaf _ _ => true
  | .seq _ s cur cs =>
      wfL cs &&
        (if s = .running then
           match cur with
           | some i => decide (i < cs.length) && othersNoRun i cs
           | none => false
         else noRunL cs)
  | .sel _ s cur cs =>
      wfL cs &&
        (if s = .running then
           match cur with
           | some i => decide (i < cs.length) && othersNoRun i cs
           | none => false
         else noRunL cs)
  | .par _ _ _ _ => false
  | .deco _ s c => wfB c && (if s = .running then true else noRunB c)

/-- List version of `wfB`. -/
def wfL : List BT → Bool
  | [] => true
  | c :: rest => wfB c && wfL rest

end

/-! ## Child management: `Composite.add_child` / `prepend_child` /
`insert_child` (src/nodes/composite.py) -/

/-- The state touched by the child-adding operations: the composite's
children (by node id) and the candidate child's parent link. -/
structure AddChildState where
  children : List Nat
  childParent : Option Nat
deriving DecidableEq, Repr

/-- `Composite.add_child` (src/nodes/composite.py:137-157).  The child is
appended to `self.children` FIRST; only then, if the child already has a
parent, a `RuntimeError` is raised (first component `true`), leaving the
appended entry in place; otherwise the child's parent is set to this
composite.  (The `TypeError` branch for non-`Behaviour` arguments cannot
arise in this typed model.) -/
def add_child (selfId childId : Nat) (st : AddChildState) : Bool × AddChildState :=
  let st1 : AddChildState := { st with children := st.children ++ [childId] }
  match st.childParent with
  | some _ => (true, st1)
  | none => (false, { st1 with childParent := some selfId })

/-- `Composite.prepend_child` (src/nodes/composite.py:234-246): inserts at the
front and overwrites the child's parent link; there is no parent check and no
error. -/
def prepend_child (selfId childId : Nat) (st : AddChildState) : Bool × AddChildState :=
  (false, { children := childId :: st.children, childParent := some selfId })

/-- `Composite.insert_child` (src/nodes/composite.py:248-262): inserts at the
given index and overwrites the child's parent link; there is no parent check
and no error. -/
def insert_child (selfId childId : Nat) (index : Nat) (st : AddChildState) :
    Bool × AddChildState :=
  (false, { children := st.children.insertIdx index childId, childParent := some selfId })

/-! ## Blackboard: `Client.register_key` (src/pybt/bb/client.py:733-801) -/

/-- Modelled from the spec (§4.6): the three access kinds of the missing
`common.Access`. -/
inductive Access where
  | read
  | write
  | exclusiveWrite
deriving DecidableEq, Repr

/-- `KeyMetaData` (src/pybt/bb/_internal/keyMetaData.py): the per-key sets of
client ids, modelled as duplicate-free lists. -/
structure KeyMetaData where
  read : List Nat
  write : List Nat
  exclusive : List Nat
deriving DecidableEq, Repr

/-- Python `set.add`. -/
def addId {α : Type} [DecidableEq α] (l : List α) (x : α) : List α :=
  if x ∈ l then l else l ++ [x]

/-- `Blackboard.metadata[key]` lookup. -/
def lookupMeta : List (String × KeyMetaData) → String → Option KeyMetaData
  | [], _ => none
  | (k, md) :: rest, key => if k = key then some md else lookupMeta rest key

/-- Update (or `setdefault`-insert) the metadata entry of a key. -/
def upsertMeta : List (String × KeyMetaData) → String → KeyMetaData →
    List (String × KeyMetaData)
  | [], key, md => [(key, md)]
  | (k, old) :: rest, key, md =>
      if k = key then (k, md) :: rest else (k, old) :: upsertMeta rest key md

/-- Update (or insert) a remapping entry. -/
def upsertRemap : List (String × String) → String → String → List (String × String)
  | [], key, v => [(key, v)]
  | (k, old) :: rest, key, v =>
      if k = key then (k, v) :: rest else (k, old) :: upsertRemap rest key v

/-- The state touched by `Client.register_key`: the global
`Blackboard.metadata` table, and this client's `read`/`write`/`exclusive`/
`required` key sets and `remappings`.  (`Blackboard.clients[uid]` lookups are
modelled as total: every id in a metadata set is a registered client.) -/
structure RegisterState where
  metadata : List (String × KeyMetaData)
  clRead : List String
  clWrite : List String
  clExclusive : List String
  clRequired : List String
  remappings : List (String × String)
deriving DecidableEq, Repr

/-- `Client.register_key` (src/pybt/bb/client.py:733-801) for a client with
id `uid`.  `key` is the already-resolved absolute name
(`Blackboard.absolute_name` is applied before anything else).  The remapping
entry is recorded first and survives even a failed registration.

* READ: no conflict check; the client id is added to the key's `read` set.
* WRITE: if the (remapped) key's metadata has ANY id in its `exclusive` set,
  an `AttributeError` is raised.  The code does not exempt the requesting
  client itself, although its docstring says "write access has already been
  given to another client".
* EXCLUSIVE_WRITE: if the metadata has ANY id in `write ∪ exclusive`, an
  `AttributeError` is raised — again with no exemption for the requester.

A missing metadata entry means no conflict (the `except KeyError: pass`).
On success the key is added to the client's set for that access kind, the
client id to the key's metadata set, and, if `required`, the key to the
client's `required` set. -/
def register_key (uid : Nat) (st : RegisterState) (key : String) (access : Access)
    (required : Bool) (remapTo : Option String) : Option String × RegisterState :=
  let remappedKey := remapTo.getD key
  let st := { st with remappings := upsertRemap st.remappings key remappedKey }
  match access with
  | .read =>
      let md := (lookupMeta st.metadata remappedKey).getD ⟨[], [], []⟩
      (none,
       { st with clRead := addId st.clRead key,
                 clRequired := if required then addId st.clRequired key else st.clRequired,
                 metadata := upsertMeta st.metadata remappedKey
                   { md with read := addId md.read uid } })
  | .write =>
      let conflicts := ((lookupMeta st.metadata remappedKey).getD ⟨[], [], []⟩).exclusive
      if conflicts ≠ [] then (some "AttributeError", st)
      else
        let md := (lookupMeta st.metadata remappedKey).getD ⟨[], [], []⟩
        (none,
         { st with clWrite := addId st.clWrite key,
                   clRequired := if required then addId st.clRequired key else st.clRequired,
                   metadata := upsertMeta st.metadata remappedKey
                     { md with write := addId md.write uid } })
  | .exclusiveWrite =>
      let md0 := (lookupMeta st.metadata remappedKey).getD ⟨[], [], []⟩
      let conflicts := md0.write ++ md0.exclusive
      if conflicts ≠ [] then (some "AttributeError", st)
      else
        (none,
         { st with clExclusive := addId st.clExclusive key,
                   clRequired := if required then addId st.clRequired key else st.clRequired,
                   metadata := upsertMeta st.metadata remappedKey
                     { md0 with exclusive := addId md0.exclusive uid } })

/-! ## Activity stream: `ActivityStream.push`
(src/pyBT/bb/_internal/activityStream.py:23-32) -/

/-- `ActivityStream.push`: `if len(self.data) > self.maximum_size:
self.data.pop()` — Python's argument-less `list.pop` removes the LAST
(newest) item — then `self.data.append(activity_item)`. -/
def activityStreamPush {α : Type} (maximumSize : Nat) (data : List α) (item : α) :
    List α :=
  (if data.length > maximumSize then data.dropLast else data) ++ [item]

/-- Default of `Selector.__init__`'s `memory` argument
(src/nodes/selector.py:32): `memory = False`. -/
def selectorDefaultMemory : Bool := false

/-- The child at index `i` (a never-ticked leaf when out of range). -/
def nodeAt (l : List BT) (i : Nat) : BT := l.getD i (.leaf .invalid [])

/-- `Sequence.tick`'s resume index: 0 on fresh entry, otherwise the
remembered `current_child` index (src/nodes/sequence.py:52-61). -/
def seqResumeIdx (m : Bool) (s : Status) (cur : Option Nat) : Nat :=
  if seqFresh m s then 0 else cur.getD 0

/-- The children a Sequence tick operates on: reset to INVALID on fresh
entry, untouched when resuming (src/nodes/sequence.py:53-57). -/
def seqPrepared (m : Bool) (s : Status) (cs : List BT) : List BT :=
  if seqFresh m s then stopNIList cs else cs

/-- `Selector.tick`'s `previous` variable (src/nodes/selector.py:47-51,81):
`current_child` after the fresh-entry reset to the first child. -/
def selPrev (s : Status) (cur : Option Nat) : Option Nat :=
  if s = Status.running then cur else some 0

/-- The children a Parallel tick operates on: reset to INVALID when the
parallel is not RUNNING (src/pybt/nodes/parallel.py:82-92). -/
def parPrepared (s : Status) (cs : List BT) : List BT :=
  if s = Status.running then cs else stopNIList cs

/-- The status after a `stop` is the requested status. -/
theorem status_stop (new : Status) (t : BT) : (stop new t).status = new := by
  cases t <;> by_cases h : new = .invalid <;>
    simp [stop, h, BT.status] <;> split <;> simp [BT.status]

mutual

/-- `stop INVALID` is idempotent. -/
theorem stop_invalid_stop_invalid (t : BT) :
    stop .invalid (stop .invalid t) = stop .invalid t := by
  cases t with
  | leaf s scr => simp [stop]
  | seq m s cur cs => simp [stop, stopList_stopList cs]
  | sel m s cur cs => simp [stop, stopList_stopList cs]
  | par p s cur cs => simp [stop, stopList_stopList cs]
  | deco f s c => simp [stop, stop_invalid_stop_invalid c]

/-- `stopList` is idempotent. -/
theorem stopList_stopList (l : List BT) : stopList (stopList l) = stopList l := by
  cases l with
  | nil => simp [stopList]
  | cons c rest =>
      simp [stopList, stop_invalid_stop_invalid c, stopList_stopList rest]

end

mutual

/-- After `stop INVALID` every node of the subtree has status INVALID. -/
theorem allInvalid_stop_invalid (t : BT) : allInvalidB (stop .invalid t) = true := by
  cases t with
  | leaf s scr => simp [stop, allInvalidB]
  | seq m s cur cs => simp [stop, allInvalidB, allInvalidL_stopList cs]
  | sel m s cur cs => simp [stop, allInvalidB, allInvalidL_stopList cs]
  | par p s cur cs => simp [stop, allInvalidB, allInvalidL_stopList cs]
  | deco f s c => simp [stop, allInvalidB, allInvalid_stop_invalid c]

/-- List version of `allInvalid_stop_invalid`. -/
theorem allInvalidL_stopList (l : List BT) : allInvalidL (stopList l) = true := by
  cases l with
  | nil => simp [stopList, allInvalidL]
  | cons c rest =>
      simp [stopList, allInvalidL, allInvalid_stop_invalid c, allInvalidL_stopList rest]

end

mutual

/-- A subtree whose every status is INVALID is RUNNING-free. -/
theorem noRun_of_allInvalid (t : BT) (h : allInvalidB t = true) : noRunB t = true := by
  cases t with
  | leaf s scr => simp [allInvalidB] at h; simp [noRunB, h]
  | seq m s cur cs =>
      simp [allInvalidB] at h
      simp [noRunB, h.1, noRunL_of_allInvalidL cs h.2]
  | sel m s cur cs =>
      simp [allInvalidB] at h
      simp [noRunB, h.1, noRunL_of_allInvalidL cs h.2]
  | par p s cur cs =>
      simp [allInvalidB] at h
      simp [noRunB, h.1, noRunL_of_allInvalidL cs h.2]
  | deco f s c =>
      simp [allInvalidB] at h
      simp [noRunB, h.1, noRun_of_allInvalid c h.2]

/-- List version of `noRun_of_allInvalid`. -/
theorem noRunL_of_allInvalidL (l : List BT) (h : allInvalidL l = true) :
    noRunL l = true := by
  cases l with
  | nil => simp [noRunL]
  | cons c rest =>
      simp [allInvalidL] at h
      simp [noRunL, noRun_of_allInvalid c h.1, noRunL_of_allInvalidL rest h.2]

end

/-- C5 (corrected): forcing a node to INVALID recursively invalidates ALL of
its descendants — both the currently-RUNNING ones and those already resolved
to SUCCESS or FAILURE. -/
theorem stop_invalid_invalidates_everything (t : BT) :
    allInvalidB (stop .invalid t) = true :=
  allInvalid_stop_invalid t

/-- C5 counterexample: a sequence that is RUNNING on child 1 while child 0 has
already resolved to SUCCESS; forcing the sequence to INVALID changes child 0's
status to INVALID even though it was resolved and is not re-entered. -/
theorem stop_invalid_changes_resolved_child :
    statusAt (BT.children (.seq true .running (some 1)
      [.leaf .success [], .leaf .running []])) 0 = .success ∧
    statusAt (BT.children (stop .invalid (.seq true .running (some 1)
      [.leaf .success [], .leaf .running []]))) 0 = .invalid := by
  constructor <;> simp [stop, stopList, BT.children, statusAt, BT.status]

/-- C6 counterexample: a default-constructed selector (`memory = False`) that
is RUNNING with active child 1 does NOT resume at child 1: child 0 is
re-ticked, becomes the active child (`current_child = 0`), and child 1 is
force-stopped to INVALID. -/
theorem selector_default_restarts_not_resumes :
    BT.cur (tick (.sel selectorDefaultMemory .running (some 1)
      [.leaf .failure [.running], .leaf .running [.running]])) = some 0 ∧
    statusAt (BT.children (tick (.sel selectorDefaultMemory .running (some 1)
      [.leaf .failure [.running], .leaf .running [.running]]))) 1 = .invalid := by
  constructor <;>
    simp [selectorDefaultMemory, tick, selStep, selLoop, invalidateAfter,
          stopNIList, stop, BT.status, BT.cur, BT.children, statusAt]

/-- Without skipping, the selector loop always ticks the first child, and the
first element of the updated list is that ticked child. -/
theorem selLoop_zero_head (mem : Bool) (c : BT) (rest : List BT) :
    (selLoop mem 0 (c :: rest)).2.head? = some (tick c) := by
  simp only [selLoop]
  split <;> simp

/-- The invalidation sweep never touches the first child. -/
theorem invalidateAfter_head (j : Nat) (l : List BT) :
    (invalidateAfter j l).head? = l.head? := by
  cases j <;> cases l <;> simp [invalidateAfter]

/-- C6 (corrected): a Selector constructed without an explicit memory argument
has memory DISABLED, and a memory-disabled selector restarts every tick from
the highest-priority child: child 0 is always (re-)ticked, whatever the
selector's status and remembered `current_child`. -/
theorem selector_default_memory_disabled (s : Status) (cur : Option Nat)
    (c : BT) (rest : List BT) :
    selectorDefaultMemory = false ∧
    (tick (.sel selectorDefaultMemory s cur (c :: rest))).children.head? =
      some (tick c) := by
  refine ⟨rfl, ?_⟩
  have h1 := selLoop_zero_head false c rest
  rw [show tick (.sel selectorDefaultMemory s cur (c :: rest)) =
        selStep false (if s = .running then cur else some 0)
          (c :: rest).length (c :: rest) from by
      simp [tick, selectorDefaultMemory]]
  unfold selStep
  rw [if_neg (by simp : ¬ ((false : Bool) = true))]
  rcases hfound : selLoop false 0 (c :: rest) with ⟨found, cs'⟩
  rw [hfound] at h1
  cases found with
  | none => simpa [BT.children] using h1
  | some js =>
      obtain ⟨j, st⟩ := js
      simp only [BT.children]
      split <;> (try split) <;>
        first
          | simpa using h1
          | (rw [invalidateAfter_head]; simpa using h1)

/-- C9 evidence: with `maximum_size = 1`, pushing three items 0, 1, 2 leaves
the stream holding [0, 2]: after the second push the stream held 2 > 1
records, and the record evicted by the third push was 1 — the newest at that
point — not the oldest (0). -/
theorem activity_stream_evicts_newest_and_overflows :
    activityStreamPush 1 (activityStreamPush 1 (activityStreamPush 1 ([] : List Nat) 0) 1) 2
      = [0, 2] ∧
    (activityStreamPush 1 (activityStreamPush 1 ([] : List Nat) 0) 1).length = 2 := by
  constructor <;> rfl

/-- C7 evidence: a child already under parent 1 is offered to composite 2.
`add_child` raises (first component `true`) but has already appended the
child to composite 2's children; `insert_child` and `prepend_child` do not
raise at all and silently overwrite the child's parent link. -/
theorem add_child_mutates_before_raise_and_insert_never_checks :
    (add_child 2 5 ⟨[], some 1⟩).1 = true ∧
    (add_child 2 5 ⟨[], some 1⟩).2.children = [5] ∧
    (add_child 2 5 ⟨[], some 1⟩).2.childParent = some 1 ∧
    (insert_child 2 5 0 ⟨[], some 1⟩).1 = false ∧
    (insert_child 2 5 0 ⟨[], some 1⟩).2.childParent = some 2 ∧
    (prepend_child 2 5 ⟨[], some 1⟩).1 = false ∧
    (prepend_child 2 5 ⟨[], some 1⟩).2.childParent = some 2 := by
  refine ⟨rfl, rfl, rfl, rfl, rfl, rfl, rfl⟩

/-- C8 evidence: client 7 is the ONLY client registered on key "/k" (it holds
WRITE access); no other client holds any access to it.  Yet client 7's own
request for EXCLUSIVE_WRITE on "/k" raises an `AttributeError`, because the
conflict scan does not exempt the requesting client. -/
theorem register_key_conflicts_with_self :
    (register_key 7
      { metadata := [("/k", ⟨[], [7], []⟩)],
        clRead := [], clWrite := ["/k"], clExclusive := [], clRequired := [],
        remappings := [("/k", "/k")] }
      "/k" .exclusiveWrite false none).1 = some "AttributeError" := by
  rfl

/-- C10 (implicit): ticking a childless Parallel whose policy configuration
validates resolves it to SUCCESS with no active child. -/
theorem parallel_no_children_succeeds (p : ParallelPolicy) (s : Status)
    (cur : Option Nat) (hp : validPolicy p 0 = true) :
    tick (.par p s cur []) = .par p .success none [] := by
  simp [tick, hp]

/-- Witness for `parallel_no_children_succeeds` at `SuccessOnOne`. -/
theorem parallel_no_children_succeeds_witness :
    validPolicy .successOnOne 0 = true ∧
    tick (.par .successOnOne .invalid none []) = .par .successOnOne .success none [] :=
  ⟨rfl, parallel_no_children_succeeds .successOnOne .invalid none rfl⟩

/-- C1 counterexample: a Parallel (policy `SuccessOnAll`) over two leaves
that both report RUNNING: after one tick of the root, the parallel and BOTH
children are RUNNING — the RUNNING set is a tree that branches, not a single
root-to-tip path. -/
theorem running_set_not_a_path_under_parallel :
    runningIsPathB (applyOps [.tickRoot]
      (.par (.successOnAll false) .invalid none
        [.leaf .invalid [.running], .leaf .invalid [.running]])) = false := by
  simp [applyOps, applyOp, tick, validPolicy, parStep, parLoop, parDecide,
        firstIdxWith, lastIdxWith, allStatus, stopNIList, sweepRunning,
        BT.status, ParallelPolicy.synchronise, runningIsPathB, noRunB, noRunL,
        pathRunB, pathChildren]

theorem statusAt_eq (l : List BT) (i : Nat) : statusAt l i = (nodeAt l i).status := by
  unfold statusAt nodeAt List.getD
  cases h : l.get? i <;> simp [BT.status]

theorem nodeAt_cons_succ (c : BT) (rest : List BT) (i : Nat) :
    nodeAt (c :: rest) (i + 1) = nodeAt rest i := by
  simp [nodeAt]

theorem nodeAt_cons_zero (c : BT) (rest : List BT) : nodeAt (c :: rest) 0 = c := by
  simp [nodeAt]

theorem noRunL_eq_forall (l : List BT) :
    noRunL l = true ↔ ∀ i, i < l.length → noRunB (nodeAt l i) = true := by
  induction l with
  | nil => simp [noRunL]
  | cons c rest ih =>
      simp only [noRunL, Bool.and_eq_true, ih]
      constructor
      · rintro ⟨h1, h2⟩ i hi
        cases i with
        | zero => simpa [nodeAt] using h1
        | succ i => exact h2 i (by simpa using hi)
      · intro h
        refine ⟨by simpa [nodeAt] using h 0 (by simp), fun i hi => ?_⟩
        simpa [nodeAt] using h (i+1) (by simpa using hi)

theorem wfL_eq_forall (l : List BT) :
    wfL l = true ↔ ∀ i, i < l.length → wfB (nodeAt l i) = true := by
  induction l with
  | nil => simp [wfL]
  | cons c rest ih =>
      simp only [wfL, Bool.and_eq_true, ih]
      constructor
      · rintro ⟨h1, h2⟩ i hi
        cases i with
        | zero => simpa [nodeAt] using h1
        | succ i => exact h2 i (by simpa using hi)
      · intro h
        refine ⟨by simpa [nodeAt] using h 0 (by simp), fun i hi => ?_⟩
        simpa [nodeAt] using h (i+1) (by simpa using hi)

theorem othersNoRun_eq_forall (k : Nat) (l : List BT) :
    othersNoRun k l = true ↔
      ∀ i, i < l.length → i ≠ k → noRunB (nodeAt l i) = true := by
  induction l generalizing k with
  | nil => simp [othersNoRun]
  | cons c rest ih =>
      cases k with
      | zero =>
          simp only [othersNoRun, noRunL_eq_forall]
          constructor
          · intro h i hi hne
            cases i with
            | zero => exact absurd rfl hne
            | succ i => simpa [nodeAt] using h i (by simpa using hi)
          · intro h i hi
            simpa [nodeAt] using h (i+1) (by simpa using hi) (by simp)
      | succ k =>
          simp only [othersNoRun, Bool.and_eq_true, ih]
          constructor
          · rintro ⟨h1, h2⟩ i hi hne
            cases i with
            | zero => simpa [nodeAt] using h1
            | succ i =>
                simpa [nodeAt] using h2 i (by simpa using hi) (by omega)
          · intro h
            refine ⟨by simpa [nodeAt] using h 0 (by simp) (by simp), fun i hi hne => ?_⟩
            simpa [nodeAt] using h (i+1) (by simpa using hi) (by omega)

theorem length_stopList (l : List BT) : (stopList l).length = l.length := by
  induction l with
  | nil => simp [stopList]
  | cons c rest ih => simp [stopList, ih]

theorem length_stopNIList (l : List BT) : (stopNIList l).length = l.length := by
  induction l with
  | nil => simp [stopNIList]
  | cons c rest ih =>
      by_cases h : c.status = Status.invalid <;> simp [stopNIList, h, ih]

theorem length_sweepRunning (l : List BT) : (sweepRunning l).length = l.length := by
  induction l with
  | nil => simp [sweepRunning]
  | cons c rest ih =>
      by_cases h : c.status = Status.running <;> simp [sweepRunning, h, ih]

theorem length_invalidateAfter (j : Nat) (l : List BT) :
    (invalidateAfter j l).length = l.length := by
  induction j generalizing l with
  | zero => cases l <;> simp [invalidateAfter, length_stopNIList]
  | succ j ih => cases l <;> simp [invalidateAfter, ih]

theorem nodeAt_stopNIList (l : List BT) (i : Nat) (hi : i < l.length) :
    nodeAt (stopNIList l) i =
      if (nodeAt l i).status ≠ Status.invalid then stop .invalid (nodeAt l i)
      else nodeAt l i := by
  induction l generalizing i with
  | nil => simp at hi
  | cons c rest ih =>
      cases i with
      | zero =>
          by_cases h : c.status = Status.invalid <;>
            simp [stopNIList, h, nodeAt_cons_zero]
      | succ i =>
          have := ih i (by simpa using hi)
          by_cases h : c.status = Status.invalid <;>
            simpa [stopNIList, h, nodeAt_cons_succ] using this

theorem nodeAt_sweepRunning (l : List BT) (i : Nat) (hi : i < l.length) :
    nodeAt (sweepRunning l) i =
      if (nodeAt l i).status = Status.running then stop .invalid (nodeAt l i)
      else nodeAt l i := by
  induction l generalizing i with
  | nil => simp at hi
  | cons c rest ih =>
      cases i with
      | zero =>
          by_cases h : c.status = Status.running <;>
            simp [sweepRunning, h, nodeAt_cons_zero]
      | succ i =>
          have := ih i (by simpa using hi)
          by_cases h : c.status = Status.running <;>
            simpa [sweepRunning, h, nodeAt_cons_succ] using this

theorem nodeAt_invalidateAfter_le (j i : Nat) (l : List BT) (h : i ≤ j) :
    nodeAt (invalidateAfter j l) i = nodeAt l i := by
  induction j generalizing i l with
  | zero =>
      interval_cases i
      cases l <;> simp [invalidateAfter, nodeAt_cons_zero, nodeAt]
  | succ j ih =>
      cases l with
      | nil => simp [invalidateAfter]
      | cons c rest =>
          cases i with
          | zero => simp [invalidateAfter, nodeAt_cons_zero]
          | succ i =>
              simp only [invalidateAfter, nodeAt_cons_succ]
              exact ih i rest (by omega)

theorem nodeAt_invalidateAfter_gt (j i : Nat) (l : List BT) (h : j < i)
    (hi : i < l.length) :
    nodeAt (invalidateAfter j l) i =
      if (nodeAt l i).status ≠ Status.invalid then stop .invalid (nodeAt l i)
      else nodeAt l i := by
  induction j generalizing i l with
  | zero =>
      cases l with
      | nil => simp at hi
      | cons c rest =>
          cases i with
          | zero => omega
          | succ i =>
              simp only [invalidateAfter, nodeAt_cons_succ]
              exact nodeAt_stopNIList rest i (by simpa using hi)
  | succ j ih =>
      cases l with
      | nil => simp at hi
      | cons c rest =>
          cases i with
          | zero => omega
          | succ i =>
              simp only [invalidateAfter, nodeAt_cons_succ]
              exact ih i rest (by omega) (by simpa using hi)

theorem length_parLoop (sync : Bool) (l : List BT) :
    (parLoop sync l).length = l.length := by
  induction l with
  | nil => simp [parLoop]
  | cons c rest ih => simp [parLoop, ih]

theorem nodeAt_parLoop (sync : Bool) (l : List BT) (i : Nat) (hi : i < l.length) :
    nodeAt (parLoop sync l) i =
      if sync = true ∧ (nodeAt l i).status = Status.success then nodeAt l i
      else tick (nodeAt l i) := by
  induction l generalizing i with
  | nil => simp at hi
  | cons c rest ih =>
      cases i with
      | zero =>
          by_cases h : sync = true ∧ c.status = Status.success <;>
            simp [parLoop, h, nodeAt_cons_zero]
      | succ i =>
          have := ih i (by simpa using hi)
          by_cases h : sync = true ∧ c.status = Status.success <;>
            simpa [parLoop, h, nodeAt_cons_succ] using this

theorem seqLoop_length (skip : Nat) (l : List BT) :
    (seqLoop skip l).2.1.length = l.length := by
  induction l generalizing skip with
  | nil => simp [seqLoop]
  | cons c rest ih =>
      cases skip with
      | zero =>
          by_cases h : (tick c).status = Status.success <;> simp [seqLoop, h, ih]
      | succ skip => simp [seqLoop, ih]

theorem selLoop_length (mem : Bool) (skip : Nat) (l : List BT) :
    (selLoop mem skip l).2.length = l.length := by
  induction l generalizing skip with
  | nil => simp [selLoop]
  | cons c rest ih =>
      cases skip with
      | zero =>
          by_cases h : (tick c).status = Status.running ∨ (tick c).status = Status.success <;>
            simp [selLoop, h, ih]
      | succ skip => simp [selLoop, ih]

theorem nodeAt_mem (l : List BT) (i : Nat) (hi : i < l.length) : nodeAt l i ∈ l := by
  unfold nodeAt List.getD
  rw [List.get?_eq_get hi]
  exact List.get_mem l i hi

theorem wt_lt_of_mem {c : BT} {l : List BT} (h : c ∈ l) : wt c < wtl l := by
  induction l with
  | nil => simp at h
  | cons x rest ih =>
      rcases List.mem_cons.mp h with h | h
      · subst h; simp [wtl]; omega
      · have := ih h; simp [wtl]; omega

mutual

theorem noPar_stop (new : Status) (t : BT) (h : noParB t = true) :
    noParB (stop new t) = true := by
  cases t with
  | leaf s scr => simp [stop, noParB]
  | seq m s cur cs =>
      simp only [noParB] at h
      by_cases hn : new = Status.invalid <;>
        simp [stop, hn, noParB, noParL_stopList cs h, h]
  | sel m s cur cs =>
      simp only [noParB] at h
      by_cases hn : new = Status.invalid <;>
        simp [stop, hn, noParB, noParL_stopList cs h, h]
  | par p s cur cs => simp [noParB] at h
  | deco f s c =>
      simp only [noParB] at h
      by_cases hn : new = Status.invalid
      · simp [stop, hn, noParB, noPar_stop .invalid c h]
      · by_cases hr : c.status = Status.running <;>
          simp [stop, hn, hr, noParB, noPar_stop .invalid c h, h]

theorem noParL_stopList (l : List BT) (h : noParL l = true) :
    noParL (stopList l) = true := by
  cases l with
  | nil => simp [stopList, noParL]
  | cons c rest =>
      simp only [noParL, Bool.and_eq_true] at h
      simp [stopList, noParL, noPar_stop .invalid c h.1, noParL_stopList rest h.2]

end

mutual

theorem wf_of_allInvalid_noPar (t : BT) (h1 : allInvalidB t = true)
    (h2 : noParB t = true) : wfB t = true := by
  cases t with
  | leaf s scr => simp [wfB]
  | seq m s cur cs =>
      simp only [allInvalidB, Bool.and_eq_true, decide_eq_true_eq] at h1
      simp only [noParB] at h2
      simp [wfB, h1.1, wfL_of_allInvalidL_noParL cs h1.2 h2,
            noRunL_of_allInvalidL cs h1.2]
  | sel m s cur cs =>
      simp only [allInvalidB, Bool.and_eq_true, decide_eq_true_eq] at h1
      simp only [noParB] at h2
      simp [wfB, h1.1, wfL_of_allInvalidL_noParL cs h1.2 h2,
            noRunL_of_allInvalidL cs h1.2]
  | par p s cur cs => simp [noParB] at h2
  | deco f s c =>
      simp only [allInvalidB, Bool.and_eq_true, decide_eq_true_eq] at h1
      simp only [noParB] at h2
      simp [wfB, h1.1, wf_of_allInvalid_noPar c h1.2 h2,
            noRun_of_allInvalid c h1.2]

theorem wfL_of_allInvalidL_noParL (l : List BT) (h1 : allInvalidL l = true)
    (h2 : noParL l = true) : wfL l = true := by
  cases l with
  | nil => simp [wfL]
  | cons c rest =>
      simp only [allInvalidL, noParL, Bool.and_eq_true] at h1 h2
      simp [wfL, wf_of_allInvalid_noPar c h1.1 h2.1,
            wfL_of_allInvalidL_noParL rest h1.2 h2.2]

end

mutual

theorem noPar_of_wf (t : BT) (h : wfB t = true) : noParB t = true := by
  cases t with
  | leaf s scr => simp [noParB]
  | seq m s cur cs =>
      simp only [wfB, Bool.and_eq_true] at h
      simp [noParB, noParL_of_wfL cs h.1]
  | sel m s cur cs =>
      simp only [wfB, Bool.and_eq_true] at h
      simp [noParB, noParL_of_wfL cs h.1]
  | par p s cur cs => simp [wfB] at h
  | deco f s c =>
      simp only [wfB, Bool.and_eq_true] at h
      simp [noParB, noPar_of_wf c h.1]

theorem noParL_of_wfL (l : List BT) (h : wfL l = true) : noParL l = true := by
  cases l with
  | nil => simp [noParL]
  | cons c rest =>
      simp only [wfL, Bool.and_eq_true] at h
      simp [noParL, noPar_of_wf c h.1, noParL_of_wfL rest h.2]

end

/-- `stop INVALID` of a well-formed tree is well-formed (it is all-INVALID and
still `Parallel`-free). -/
theorem wf_stop_invalid (t : BT) (h : wfB t = true) :
    wfB (stop .invalid t) = true :=
  wf_of_allInvalid_noPar _ (allInvalid_stop_invalid t)
    (noPar_stop .invalid t (noPar_of_wf t h))

/-- `stop INVALID` leaves a RUNNING-free subtree. -/
theorem noRun_stop_invalid (t : BT) : noRunB (stop .invalid t) = true :=
  noRun_of_allInvalid _ (allInvalid_stop_invalid t)

/-- A well-formed node that is not RUNNING has a RUNNING-free subtree. -/
theorem noRun_of_wf_not_running (t : BT) (h : wfB t = true)
    (hs : t.status ≠ Status.running) : noRunB t = true := by
  cases t with
  | leaf s scr => simp [BT.status] at hs; simp [noRunB, hs]
  | seq m s cur cs =>
      simp only [BT.status] at hs
      simp only [wfB, Bool.and_eq_true] at h
      rw [if_neg hs] at h
      simp [noRunB, hs, h.2]
  | sel m s cur cs =>
      simp only [BT.status] at hs
      simp only [wfB, Bool.and_eq_true] at h
      rw [if_neg hs] at h
      simp [noRunB, hs, h.2]
  | par p s cur cs => simp [wfB] at h
  | deco f s c =>
      simp only [BT.status] at hs
      simp only [wfB, Bool.and_eq_true] at h
      rw [if_neg hs] at h
      simp [noRunB, hs, h.2]

theorem othersNoRun_of_noRunL (k : Nat) (l : List BT) (h : noRunL l = true) :
    othersNoRun k l = true := by
  rw [othersNoRun_eq_forall]
  intro i hi _
  exact (noRunL_eq_forall l).mp h i hi

theorem pathChildren_of_noRunL (l : List BT) (h : noRunL l = true) :
    pathChildren l = true := by
  induction l with
  | nil => simp [pathChildren]
  | cons c rest ih =>
      simp only [noRunL, Bool.and_eq_true] at h
      simp [pathChildren, h.1, ih h.2]

theorem pathChildren_of_hole (k : Nat) (l : List BT) (hk : k < l.length)
    (hoth : othersNoRun k l = true)
    (hk2 : noRunB (nodeAt l k) = true ∨ pathRunB (nodeAt l k) = true) :
    pathChildren l = true := by
  induction l generalizing k with
  | nil => simp at hk
  | cons c rest ih =>
      cases k with
      | zero =>
          simp only [othersNoRun] at hoth
          rw [nodeAt_cons_zero] at hk2
          rcases hk2 with h | h
          · simp [pathChildren, h, pathChildren_of_noRunL rest hoth]
          · simp [pathChildren, h, hoth]
      | succ k =>
          simp only [othersNoRun, Bool.and_eq_true] at hoth
          rw [nodeAt_cons_succ] at hk2
          simp [pathChildren, hoth.1,
                ih k (by simpa using hk) hoth.2 hk2]

mutual

theorem runningIsPath_of_wf (t : BT) (h : wfB t = true) :
    noRunB t = true ∨ pathRunB t = true := by
  cases t with
  | leaf s scr =>
      by_cases hs : s = Status.running
      · right; simp [pathRunB, hs]
      · left; simp [noRunB, hs]
  | seq m s cur cs =>
      by_cases hs : s = Status.running
      · right
        simp only [wfB, Bool.and_eq_true] at h
        rw [if_pos hs] at h
        rcases h with ⟨hwfl, hcur⟩
        cases cur with
        | none => simp at hcur
        | some i =>
            simp only [Bool.and_eq_true, decide_eq_true_eq] at hcur
            have hwfi := (wfL_eq_forall cs).mp hwfl i hcur.1
            simp [pathRunB, hs,
                  pathChildren_of_hole i cs hcur.1 hcur.2
                    (runningIsPathL_of_wfL cs hwfl i hcur.1)]
      · left
        exact noRun_of_wf_not_running _ h (by simpa [BT.status] using hs)
  | sel m s cur cs =>
      by_cases hs : s = Status.running
      · right
        simp only [wfB, Bool.and_eq_true] at h
        rw [if_pos hs] at h
        rcases h with ⟨hwfl, hcur⟩
        cases cur with
        | none => simp at hcur
        | some i =>
            simp only [Bool.and_eq_true, decide_eq_true_eq] at hcur
            simp [pathRunB, hs,
                  pathChildren_of_hole i cs hcur.1 hcur.2
                    (runningIsPathL_of_wfL cs hwfl i hcur.1)]
      · left
        exact noRun_of_wf_not_running _ h (by simpa [BT.status] using hs)
  | par p s cur cs => simp [wfB] at h
  | deco f s c =>
      by_cases hs : s = Status.running
      · right
        simp only [wfB, Bool.and_eq_true] at h
        rcases runningIsPath_of_wf c h.1 with h2 | h2 <;>
          simp [pathRunB, hs, h2]
      · left
        exact noRun_of_wf_not_running _ h (by simpa [BT.status] using hs)

theorem runningIsPathL_of_wfL (l : List BT) (h : wfL l = true) :
    ∀ i, i < l.length →
      noRunB (nodeAt l i) = true ∨ pathRunB (nodeAt l i) = true := by
  cases l with
  | nil => intro i hi; simp at hi
  | cons c rest =>
      intro i hi
      simp only [wfL, Bool.and_eq_true] at h
      cases i with
      | zero => rw [nodeAt_cons_zero]; exact runningIsPath_of_wf c h.1
      | succ i =>
          rw [nodeAt_cons_succ]
          exact runningIsPathL_of_wfL rest h.2 i (by simpa using hi)

end

theorem length_seqPrepared (m : Bool) (s : Status) (cs : List BT) :
    (seqPrepared m s cs).length = cs.length := by
  unfold seqPrepared
  split <;> simp [length_stopNIList]

theorem tick_seq (m : Bool) (s : Status) (cur : Option Nat) (cs : List BT)
    (h : cs ≠ []) :
    tick (.seq m s cur cs) =
      seqStep m (seqResumeIdx m s cur) cs.length (seqPrepared m s cs) := by
  rw [show tick (.seq m s cur cs) =
        if cs.isEmpty then .seq m .success none []
        else if seqFresh m s then seqStep m 0 cs.length (stopNIList cs)
        else seqStep m (cur.getD 0) cs.length cs from by simp [tick]]
  rw [if_neg (by simpa [List.isEmpty_iff] using h)]
  unfold seqResumeIdx seqPrepared
  split <;> rfl

theorem nodeAt_drop (l : List BT) (i j : Nat) :
    nodeAt (l.drop i) j = nodeAt l (i + j) := by
  unfold nodeAt List.getD
  rw [show (l.drop i).get? j = l.get? (i + j) from by simp [List.getElem?_drop]]

theorem seqLoop_skip (skip : Nat) (l : List BT) :
    seqLoop skip l = ((seqLoop 0 (l.drop skip)).1,
                      l.take skip ++ (seqLoop 0 (l.drop skip)).2.1,
                      (seqLoop 0 (l.drop skip)).2.2) := by
  induction skip generalizing l with
  | zero => simp
  | succ skip ih =>
      cases l with
      | nil => simp [seqLoop]
      | cons c rest => simp [seqLoop, ih rest]

theorem seqLoop_halt (l : List BT) (k : Nat) (hk : k < l.length)
    (hbef : ∀ j, j < k → (tick (nodeAt l j)).status = Status.success)
    (hhalt : (tick (nodeAt l k)).status ≠ Status.success) :
    seqLoop 0 l = (some (tick (nodeAt l k)).status,
                   (l.take k).map tick ++ tick (nodeAt l k) :: l.drop (k+1),
                   k) := by
  induction l generalizing k with
  | nil => simp at hk
  | cons c rest ih =>
      cases k with
      | zero =>
          rw [nodeAt_cons_zero] at hhalt ⊢
          simp [seqLoop, hhalt]
      | succ k =>
          have hc := hbef 0 (by omega)
          rw [nodeAt_cons_zero] at hc
          have hrec := ih k (by simpa using hk)
            (fun j hj => by
              simpa [nodeAt_cons_succ] using hbef (j+1) (by omega))
            (by simpa [nodeAt_cons_succ] using hhalt)
          rw [nodeAt_cons_succ]
          simp [seqLoop, hc, hrec]

theorem seqLoop_all (l : List BT)
    (hall : ∀ j, j < l.length → (tick (nodeAt l j)).status = Status.success) :
    seqLoop 0 l = (none, l.map tick, l.length) := by
  induction l with
  | nil => simp [seqLoop]
  | cons c rest ih =>
      have hc := hall 0 (by simp)
      rw [nodeAt_cons_zero] at hc
      have hrec := ih (fun j hj => by
        simpa [nodeAt_cons_succ] using hall (j+1) (by simpa using hj))
      simp [seqLoop, hc, hrec]

/-- C4: from the resume index, the first child whose tick ends in a status
other than SUCCESS halts the traversal: the Sequence adopts exactly that
child's status (its `current_child` is that child) and the children after it
are left exactly as prepared — they are not ticked that cycle.  With no
children, or with every child from the resume index ticking to SUCCESS, the
Sequence returns SUCCESS. -/
theorem sequence_halts_at_first_non_success (m : Bool) (s : Status)
    (cur : Option Nat) (cs : List BT) :
    (cs = [] → tick (.seq m s cur cs) = .seq m .success none []) ∧
    (∀ k, seqResumeIdx m s cur ≤ k → k < cs.length →
      (∀ j, seqResumeIdx m s cur ≤ j → j < k →
        (tick (nodeAt (seqPrepared m s cs) j)).status = Status.success) →
      (tick (nodeAt (seqPrepared m s cs) k)).status ≠ Status.success →
      (tick (.seq m s cur cs)).status =
          (tick (nodeAt (seqPrepared m s cs) k)).status ∧
        (tick (.seq m s cur cs)).cur = some k ∧
        (tick (.seq m s cur cs)).children.drop (k+1) =
          (seqPrepared m s cs).drop (k+1)) ∧
    ((∀ j, seqResumeIdx m s cur ≤ j → j < cs.length →
        (tick (nodeAt (seqPrepared m s cs) j)).status = Status.success) →
      (tick (.seq m s cur cs)).status = Status.success) := by
  set i := seqResumeIdx m s cur with hi
  set l := seqPrepared m s cs with hl
  have hlen : l.length = cs.length := length_seqPrepared m s cs
  refine ⟨fun h => by subst h; simp [tick], ?_, ?_⟩
  · intro k hik hk hbef hhalt
    have hne : cs ≠ [] := by intro h; subst h; simp at hk
    rw [tick_seq m s cur cs hne, ← hi, ← hl]
    have hhalt' := seqLoop_halt (l.drop i) (k - i)
      (by simp [hlen]; omega)
      (fun j hj => by rw [nodeAt_drop]; exact hbef (i+j) (by omega) (by omega))
      (by rw [nodeAt_drop, show i + (k - i) = k from by omega]; exact hhalt)
    rw [nodeAt_drop, show i + (k - i) = k from by omega] at hhalt'
    unfold seqStep
    rw [seqLoop_skip, hhalt']
    refine ⟨by simp [BT.status], by simp [BT.cur]; omega, ?_⟩
    simp only [BT.children]
    have h1 : (l.take i).length = i := List.length_take_of_le (by omega)
    have h2 : (((l.drop i).take (k - i)).map tick).length = k - i := by
      rw [List.length_map, List.length_take_of_le (by simp [hlen]; omega)]
    have e1 : k + 1 = (l.take i).length + (k + 1 - i) := by rw [h1]; omega
    rw [e1, List.drop_append]
    have e2 : k + 1 - i = (((l.drop i).take (k - i)).map tick).length + 1 := by
      rw [h2]; omega
    rw [e2, List.drop_append]
    have e3 : (tick (nodeAt l k) :: (l.drop i).drop (k-i+1)).drop 1 =
        (l.drop i).drop (k-i+1) := rfl
    rw [e3, List.drop_drop]
    have e4 : i + (k - i + 1) = k + 1 := by omega
    rw [e4, h1, h2]
    congr 1
    omega
  · intro hall
    by_cases hne : cs = []
    · subst hne; simp [tick, BT.status]
    rw [tick_seq m s cur cs hne, ← hi, ← hl]
    have hall' := seqLoop_all (l.drop i)
      (fun j hj => by
        rw [nodeAt_drop]
        exact hall (i+j) (by omega) (by simp at hj; omega))
    unfold seqStep
    rw [seqLoop_skip, hall']
    simp [BT.status]

/-- Witness for `sequence_halts_at_first_non_success`: children scripted
SUCCESS, FAILURE, RUNNING; the sequence stops at child 1 with FAILURE and
child 2 is untouched. -/
theorem sequence_halts_witness :
    (tick (.seq true .invalid none
      [.leaf .invalid [.success], .leaf .invalid [.failure],
       .leaf .invalid [.running]])).status = Status.failure ∧
    (tick (.seq true .invalid none
      [.leaf .invalid [.success], .leaf .invalid [.failure],
       .leaf .invalid [.running]])).cur = some 1 ∧
    (tick (.seq true .invalid none
      [.leaf .invalid [.success], .leaf .invalid [.failure],
       .leaf .invalid [.running]])).children.drop 2 = [.leaf .invalid [.running]] := by
  have h := (sequence_halts_at_first_non_success true .invalid none
    [.leaf .invalid [.success], .leaf .invalid [.failure],
     .leaf .invalid [.running]]).2.1 1
    (by simp [seqResumeIdx, seqFresh]) (by simp)
    (fun j h1 h2 => by
      interval_cases j
      simp [seqPrepared, seqFresh, stopNIList, nodeAt, tick, BT.status])
    (by simp [seqPrepared, seqFresh, stopNIList, nodeAt, tick, BT.status])
  refine ⟨?_, h.2.1, ?_⟩
  · rw [h.1]
    simp [seqPrepared, seqFresh, stopNIList, nodeAt, tick, BT.status]
  · rw [h.2.2]
    simp [seqPrepared, seqFresh, stopNIList, BT.status]

theorem tick_sel (m : Bool) (s : Status) (cur : Option Nat) (cs : List BT)
    (h : cs ≠ []) :
    tick (.sel m s cur cs) = selStep m (selPrev s cur) cs.length cs := by
  rw [show tick (.sel m s cur cs) =
        if cs.isEmpty then .sel m .failure none []
        else selStep m (if s = .running then cur else some 0) cs.length cs from by
      simp [tick]]
  rw [if_neg (by simpa [List.isEmpty_iff] using h)]
  rfl

theorem selLoop_skip (mem : Bool) (skip : Nat) (l : List BT) :
    selLoop mem skip l =
      ((selLoop mem 0 (l.drop skip)).1.map (fun q => (q.1 + skip, q.2)),
       (l.take skip).map (fun c => if mem then stop .invalid c else c) ++
         (selLoop mem 0 (l.drop skip)).2) := by
  induction skip generalizing l with
  | zero => simp
  | succ skip ih =>
      cases l with
      | nil => simp [selLoop]
      | cons c rest =>
          simp only [selLoop, ih rest, List.drop_succ_cons, List.take_succ_cons,
            List.map_cons, List.cons_append, Option.map_map]
          have hfun : ((fun q : Nat × Status => (q.1 + 1, q.2)) ∘
              (fun q : Nat × Status => (q.1 + skip, q.2))) =
              (fun q : Nat × Status => (q.1 + (skip + 1), q.2)) := by
            funext q
            simp
            omega
          rw [hfun]

theorem selLoop_halt (mem : Bool) (l : List BT) (k : Nat) (hk : k < l.length)
    (hbef : ∀ j, j < k → (tick (nodeAt l j)).status ≠ Status.running ∧
        (tick (nodeAt l j)).status ≠ Status.success)
    (hhalt : (tick (nodeAt l k)).status = Status.running ∨
        (tick (nodeAt l k)).status = Status.success) :
    selLoop mem 0 l = (some (k, (tick (nodeAt l k)).status),
                       (l.take k).map tick ++ tick (nodeAt l k) :: l.drop (k+1)) := by
  induction l generalizing k with
  | nil => simp at hk
  | cons c rest ih =>
      cases k with
      | zero =>
          rw [nodeAt_cons_zero] at hhalt ⊢
          simp [selLoop, hhalt]
      | succ k =>
          have hc := hbef 0 (by omega)
          rw [nodeAt_cons_zero] at hc
          have hrec := ih k (by simpa using hk)
            (fun j hj => by
              simpa [nodeAt_cons_succ] using hbef (j+1) (by omega))
            (by simpa [nodeAt_cons_succ] using hhalt)
          rw [nodeAt_cons_succ]
          simp [selLoop, hc.1, hc.2, hrec]

/-- C2: if, ticking from the resume index, the first child to return RUNNING
or SUCCESS sits at index `k` and differs from `previous`, then the selector
adopts that child's status, makes it the active child, and every sibling
after index `k` ends the tick with status INVALID (those not already INVALID
are force-stopped). -/
theorem selector_preempts_lower_priority (m : Bool) (s : Status)
    (cur : Option Nat) (cs : List BT) (k : Nat)
    (hik : (if m then (selPrev s cur).getD 0 else 0) ≤ k) (hk : k < cs.length)
    (hbef : ∀ j, (if m then (selPrev s cur).getD 0 else 0) ≤ j → j < k →
      (tick (nodeAt cs j)).status ≠ Status.running ∧
        (tick (nodeAt cs j)).status ≠ Status.success)
    (hhalt : (tick (nodeAt cs k)).status = Status.running ∨
        (tick (nodeAt cs k)).status = Status.success)
    (hdiff : selPrev s cur ≠ some k) :
    (tick (.sel m s cur cs)).status = (tick (nodeAt cs k)).status ∧
    (tick (.sel m s cur cs)).cur = some k ∧
    (∀ jj, k < jj → jj < cs.length →
      statusAt (tick (.sel m s cur cs)).children jj = Status.invalid) := by
  set i := (if m then (selPrev s cur).getD 0 else 0) with hidef
  have hne : cs ≠ [] := by intro h; subst h; simp at hk
  rw [tick_sel m s cur cs hne]
  have hhalt' := selLoop_halt m (cs.drop i) (k - i)
    (by simp; omega)
    (fun j hj => by rw [nodeAt_drop]; exact hbef (i+j) (by omega) (by omega))
    (by rw [nodeAt_drop, show i + (k - i) = k from by omega]; exact hhalt)
  rw [nodeAt_drop, show i + (k - i) = k from by omega] at hhalt'
  have hki : k - i + i = k := by omega
  have hselFst : (selLoop m i cs).1 = some (k, (tick (nodeAt cs k)).status) := by
    rw [selLoop_skip m i cs, hhalt']
    simp [hki]
  have hlen2 := selLoop_length m i cs
  unfold selStep
  rw [← hidef]
  rcases hfound : selLoop m i cs with ⟨found, cs2⟩
  rw [hfound] at hselFst hlen2
  simp only at hselFst hlen2
  subst hselFst
  dsimp only
  rw [if_neg hdiff]
  refine ⟨by simp [BT.status], by simp [BT.cur], ?_⟩
  intro jj hjj hjjlen
  simp only [BT.children]
  rw [statusAt_eq,
      nodeAt_invalidateAfter_gt k jj cs2 hjj (by rw [hlen2]; exact hjjlen)]
  split
  · rw [status_stop]
  · rename_i hinv
    simpa using hinv

/-- Witness for `selector_preempts_lower_priority`: the spec §8 scenario,
second tick.  Children [A, B], B previously RUNNING and active; A now ticks
SUCCESS: the selector turns SUCCESS with active child A, and B is forced to
INVALID. -/
theorem selector_preempts_witness :
    (tick (.sel false .running (some 1)
      [.leaf .failure [.success], .leaf .running []])).status = Status.success ∧
    (tick (.sel false .running (some 1)
      [.leaf .failure [.success], .leaf .running []])).cur = some 0 ∧
    statusAt (tick (.sel false .running (some 1)
      [.leaf .failure [.success], .leaf .running []])).children 1 = Status.invalid := by
  have h := selector_preempts_lower_priority false .running (some 1)
    [.leaf .failure [.success], .leaf .running []] 0
    (by simp) (by simp)
    (fun j h1 h2 => absurd h2 (by omega))
    (by simp [nodeAt, tick, BT.status])
    (by simp [selPrev])
  refine ⟨?_, h.2.1, h.2.2 1 (by omega) (by simp)⟩
  rw [h.1]
  simp [nodeAt, tick, BT.status]

theorem length_parPrepared (s : Status) (cs : List BT) :
    (parPrepared s cs).length = cs.length := by
  unfold parPrepared
  split <;> simp [length_stopNIList]

theorem tick_par (p : ParallelPolicy) (s : Status) (cur : Option Nat)
    (cs : List BT) (hv : validPolicy p cs.length = true) (h : cs ≠ []) :
    tick (.par p s cur cs) = parStep p (parPrepared s cs) := by
  rw [show tick (.par p s cur cs) =
        if !(validPolicy p cs.length) then .par p s cur cs
        else if cs.isEmpty then .par p .success none []
        else if s = .running then parStep p cs
        else parStep p (stopNIList cs) from by simp [tick]]
  rw [hv]
  simp only [Bool.not_true, Bool.false_eq_true, if_false]
  rw [if_neg (by simpa [List.isEmpty_iff] using h)]
  unfold parPrepared
  split <;> rfl

theorem firstIdxWith_none (st : Status) (l : List BT)
    (h : firstIdxWith st l = none) :
    ∀ i, i < l.length → (nodeAt l i).status ≠ st := by
  induction l with
  | nil => intro i hi; simp at hi
  | cons c rest ih =>
      intro i hi
      by_cases hc : c.status = st
      · simp [firstIdxWith, hc] at h
      · cases i with
        | zero => simpa [nodeAt_cons_zero] using hc
        | succ i =>
            rw [nodeAt_cons_succ]
            simp only [firstIdxWith, hc, if_false] at h
            cases hrest : firstIdxWith st rest with
            | some v => rw [hrest] at h; simp at h
            | none => exact ih hrest i (by simpa using hi)

/-- C3: for every tick of a Parallel with a valid policy configuration — (1)
if any child ends the child-ticking phase with status FAILURE, the parallel's
status becomes FAILURE regardless of policy, with its active child the first
failed child; (2) whenever the tick resolves the parallel (its status is not
RUNNING), no child of the result has status RUNNING: every still-RUNNING
child was force-stopped to INVALID before the tick completed. -/
theorem parallel_failure_dominates_and_sweeps (p : ParallelPolicy) (s : Status)
    (cur : Option Nat) (cs : List BT) (hv : validPolicy p cs.length = true) :
    ((∃ j, j < (parLoop p.synchronise (parPrepared s cs)).length ∧
        (nodeAt (parLoop p.synchronise (parPrepared s cs)) j).status = Status.failure) →
      (tick (.par p s cur cs)).status = Status.failure ∧
      (tick (.par p s cur cs)).cur =
        firstIdxWith .failure (parLoop p.synchronise (parPrepared s cs))) ∧
    ((tick (.par p s cur cs)).status ≠ Status.running →
      ∀ j, j < (tick (.par p s cur cs)).children.length →
        (nodeAt (tick (.par p s cur cs)).children j).status ≠ Status.running) := by
  constructor
  · intro hex
    have hne : cs ≠ [] := by
      intro h
      subst h
      obtain ⟨j, hj, _⟩ := hex
      simp [parPrepared, stopNIList, parLoop] at hj
    rw [tick_par p s cur cs hv hne]
    set cs1 := parLoop p.synchronise (parPrepared s cs) with hcs1
    cases hf : firstIdxWith .failure cs1 with
    | none =>
        obtain ⟨j, hj, hjf⟩ := hex
        exact absurd hjf (firstIdxWith_none .failure cs1 hf j hj)
    | some idx =>
        have hD : parDecide p cs1 = (Status.failure, some idx) := by
          unfold parDecide
          rw [hf]
        have hstep : parStep p (parPrepared s cs) =
            .par p Status.failure (some idx) (sweepRunning cs1) := by
          unfold parStep
          dsimp only
          rw [← hcs1, hD]
          simp
        rw [hstep]
        exact ⟨by simp [BT.status], by simp [BT.cur, hf]⟩
  · intro hns j hj
    by_cases hne : cs = []
    · subst hne
      have hv0 : validPolicy p 0 = true := by simpa using hv
      rw [show tick (.par p s cur ([] : List BT)) = .par p .success none [] from by
          simp [tick, hv0]] at hj
      simp [BT.children] at hj
    · rw [tick_par p s cur cs hv hne] at hns hj ⊢
      set cs1 := parLoop p.synchronise (parPrepared s cs) with hcs1
      rcases hd : parDecide p cs1 with ⟨d1, d2⟩
      have hstep : parStep p (parPrepared s cs) =
          if d1 = Status.running then .par p .running d2 cs1
          else .par p d1 d2 (sweepRunning cs1) := by
        unfold parStep
        dsimp only
        rw [← hcs1, hd]
      rw [hstep] at hns hj ⊢
      by_cases hrun : d1 = Status.running
      · rw [if_pos hrun] at hns
        simp [BT.status] at hns
      · rw [if_neg hrun] at hns hj ⊢
        simp only [BT.children] at hj ⊢
        rw [length_sweepRunning] at hj
        rw [nodeAt_sweepRunning cs1 j hj]
        split
        · rw [status_stop]
          simp
        · rename_i hnr
          exact hnr

/-- Witness for `parallel_failure_dominates_and_sweeps`: children scripted
FAILURE and RUNNING under `SuccessOnAll`; the parallel fails with active
child 0 and the RUNNING sibling does not stay RUNNING. -/
theorem parallel_failure_witness :
    (tick (.par (.successOnAll false) .invalid none
      [.leaf .invalid [.failure], .leaf .invalid [.running]])).status = Status.failure ∧
    (tick (.par (.successOnAll false) .invalid none
      [.leaf .invalid [.failure], .leaf .invalid [.running]])).cur = some 0 ∧
    (nodeAt (tick (.par (.successOnAll false) .invalid none
      [.leaf .invalid [.failure], .leaf .invalid [.running]])).children 1).status ≠
      Status.running := by
  have h := parallel_failure_dominates_and_sweeps (.successOnAll false) .invalid none
    [.leaf .invalid [.failure], .leaf .invalid [.running]] rfl
  have h1 := h.1 ⟨0,
    by simp [parPrepared, stopNIList, parLoop, length_parLoop, BT.status],
    by simp [parPrepared, stopNIList, parLoop, tick, nodeAt,
             ParallelPolicy.synchronise, BT.status]⟩
  refine ⟨h1.1, ?_, ?_⟩
  · rw [h1.2]
    simp [parPrepared, stopNIList, parLoop, tick, nodeAt, firstIdxWith,
          ParallelPolicy.synchronise, BT.status]
  · refine h.2 (by rw [h1.1]; simp) 1 ?_
    rw [tick_par (.successOnAll false) .invalid none
          [.leaf .invalid [.failure], .leaf .invalid [.running]] rfl (by simp)]
    unfold parStep
    simp [parPrepared, stopNIList, parLoop, tick, nodeAt, parDecide, firstIdxWith,
          ParallelPolicy.synchronise, BT.status, BT.children, length_sweepRunning,
          sweepRunning, stop]

theorem nodeAt_append_left (A B : List BT) (i : Nat) (h : i < A.length) :
    nodeAt (A ++ B) i = nodeAt A i := by
  unfold nodeAt List.getD
  rw [List.get?_append h]

theorem nodeAt_append_right (A B : List BT) (i : Nat) (h : A.length ≤ i) :
    nodeAt (A ++ B) i = nodeAt B (i - A.length) := by
  unfold nodeAt List.getD
  rw [List.get?_append_right h]

/-- What one pass of the Sequence loop (no skipping) guarantees, given that
ticking preserves well-formedness of each child: the output children are
well-formed; on a halt the halting index is in range, carries the halting
status, everything before it is RUNNING-free (it ticked SUCCESS) and
everything after it is untouched; if every child ticked SUCCESS the whole
output is RUNNING-free. -/
theorem seqLoop_wf0 (l : List BT)
    (IH : ∀ c ∈ l, wfB c = true → wfB (tick c) = true)
    (hwf : ∀ i, i < l.length → wfB (nodeAt l i) = true) :
    (∀ i, i < l.length → wfB (nodeAt (seqLoop 0 l).2.1 i) = true) ∧
    (∀ st, (seqLoop 0 l).1 = some st →
      (seqLoop 0 l).2.2 < l.length ∧
      (nodeAt (seqLoop 0 l).2.1 (seqLoop 0 l).2.2).status = st ∧
      (∀ i, i < (seqLoop 0 l).2.2 → noRunB (nodeAt (seqLoop 0 l).2.1 i) = true) ∧
      (∀ i, (seqLoop 0 l).2.2 < i → i < l.length →
        nodeAt (seqLoop 0 l).2.1 i = nodeAt l i)) ∧
    ((seqLoop 0 l).1 = none →
      ∀ i, i < l.length → noRunB (nodeAt (seqLoop 0 l).2.1 i) = true) := by
  induction l with
  | nil =>
      refine ⟨fun i hi => by simp at hi, fun st hst => by simp [seqLoop] at hst,
        fun _ i hi => by simp at hi⟩
  | cons c rest ih =>
      have hwfc : wfB c = true := by simpa [nodeAt_cons_zero] using hwf 0 (by simp)
      have hwfc1 : wfB (tick c) = true := IH c (by simp) hwfc
      have ihr := ih (fun c' hc' hw => IH c' (by simp [hc']) hw)
        (fun i hi => by simpa [nodeAt_cons_succ] using hwf (i+1) (by simpa using hi))
      by_cases hs : (tick c).status = Status.success
      · have hnr1 : noRunB (tick c) = true :=
          noRun_of_wf_not_running _ hwfc1 (by simp [hs])
        rcases hr : seqLoop 0 rest with ⟨res, out, cnt⟩
        rw [hr] at ihr
        simp only at ihr
        have heq : seqLoop 0 (c :: rest) = (res, tick c :: out, cnt + 1) := by
          simp [seqLoop, hs, hr]
        rw [heq]
        simp only
        refine ⟨?_, ?_, ?_⟩
        · intro i hi
          cases i with
          | zero => simpa [nodeAt_cons_zero] using hwfc1
          | succ i =>
              rw [nodeAt_cons_succ]
              exact ihr.1 i (by simpa using hi)
        · intro st hst
          obtain ⟨hlt, hstat, hpre, hsuf⟩ := ihr.2.1 st hst
          refine ⟨by simpa using hlt, by simpa [nodeAt_cons_succ] using hstat,
            ?_, ?_⟩
          · intro i hi
            cases i with
            | zero => simpa [nodeAt_cons_zero] using hnr1
            | succ i =>
                rw [nodeAt_cons_succ]
                exact hpre i (by omega)
          · intro i h1 h2
            cases i with
            | zero => omega
            | succ i =>
                rw [nodeAt_cons_succ, nodeAt_cons_succ]
                exact hsuf i (by omega) (by simpa using h2)
        · intro hnone i hi
          cases i with
          | zero => simpa [nodeAt_cons_zero] using hnr1
          | succ i =>
              rw [nodeAt_cons_succ]
              exact ihr.2.2 hnone i (by simpa using hi)
      · have heq : seqLoop 0 (c :: rest) =
            (some (tick c).status, tick c :: rest, 0) := by
          simp [seqLoop, hs]
        rw [heq]
        simp only
        refine ⟨?_, ?_, by intro h; simp at h⟩
        · intro i hi
          cases i with
          | zero => simpa [nodeAt_cons_zero] using hwfc1
          | succ i =>
              rw [nodeAt_cons_succ]
              exact hwf (i+1) (by simpa using hi)
        · intro st hst
          have hst' : st = (tick c).status := by
            simpa using hst.symm
          subst hst'
          refine ⟨by simp, by simp [nodeAt_cons_zero],
            fun i hi => by omega, ?_⟩
          intro i h1 h2
          cases i with
          | zero => omega
          | succ i => rw [nodeAt_cons_succ, nodeAt_cons_succ]

/-- What one pass of the Selector loop (no skipping) guarantees, given that
ticking preserves well-formedness of each child: output children are
well-formed; when a child halts the loop (RUNNING or SUCCESS) its index is in
range and carries the halting status, everything before it ticked FAILURE (so
is RUNNING-free) and everything after it is untouched; when every child
ticked FAILURE, the whole output is RUNNING-free. -/
theorem selLoop_wf0 (mem : Bool) (l : List BT)
    (IH : ∀ c ∈ l, wfB c = true → wfB (tick c) = true)
    (hwf : ∀ i, i < l.length → wfB (nodeAt l i) = true) :
    (∀ i, i < l.length → wfB (nodeAt (selLoop mem 0 l).2 i) = true) ∧
    (∀ j st, (selLoop mem 0 l).1 = some (j, st) →
      j < l.length ∧ (nodeAt (selLoop mem 0 l).2 j).status = st ∧
      (st = Status.running ∨ st = Status.success) ∧
      (∀ i, i < j → noRunB (nodeAt (selLoop mem 0 l).2 i) = true) ∧
      (∀ i, j < i → i < l.length → nodeAt (selLoop mem 0 l).2 i = nodeAt l i)) ∧
    ((selLoop mem 0 l).1 = none →
      ∀ i, i < l.length → noRunB (nodeAt (selLoop mem 0 l).2 i) = true) := by
  induction l with
  | nil =>
      refine ⟨fun i hi => by simp at hi, fun j st hst => by simp [selLoop] at hst,
        fun _ i hi => by simp at hi⟩
  | cons c rest ih =>
      have hwfc : wfB c = true := by simpa [nodeAt_cons_zero] using hwf 0 (by simp)
      have hwfc1 : wfB (tick c) = true := IH c (by simp) hwfc
      have ihr := ih (fun c' hc' hw => IH c' (by simp [hc']) hw)
        (fun i hi => by simpa [nodeAt_cons_succ] using hwf (i+1) (by simpa using hi))
      by_cases hs : (tick c).status = Status.running ∨ (tick c).status = Status.success
      · have heq : selLoop mem 0 (c :: rest) =
            (some (0, (tick c).status), tick c :: rest) := by
          simp [selLoop, hs]
        rw [heq]
        simp only
        refine ⟨?_, ?_, by intro h; simp at h⟩
        · intro i hi
          cases i with
          | zero => simpa [nodeAt_cons_zero] using hwfc1
          | succ i =>
              rw [nodeAt_cons_succ]
              exact hwf (i+1) (by simpa using hi)
        · intro j st hst
          simp only [Option.some.injEq, Prod.mk.injEq] at hst
          obtain ⟨hj, hstq⟩ := hst
          subst hj
          subst hstq
          refine ⟨by simp, by simp [nodeAt_cons_zero], hs,
            fun i hi => by omega, ?_⟩
          intro i h1 h2
          cases i with
          | zero => omega
          | succ i => rw [nodeAt_cons_succ, nodeAt_cons_succ]
      · have hnr1 : noRunB (tick c) = true :=
          noRun_of_wf_not_running _ hwfc1 (by
            intro h
            exact hs (Or.inl h))
        rcases hr : selLoop mem 0 rest with ⟨res, out⟩
        rw [hr] at ihr
        simp only at ihr
        have heq : selLoop mem 0 (c :: rest) =
            ((res.map fun q => (q.1 + 1, q.2)), tick c :: out) := by
          simp [selLoop, hs, hr]
        rw [heq]
        simp only
        refine ⟨?_, ?_, ?_⟩
        · intro i hi
          cases i with
          | zero => simpa [nodeAt_cons_zero] using hwfc1
          | succ i =>
              rw [nodeAt_cons_succ]
              exact ihr.1 i (by simpa using hi)
        · intro j st hst
          cases res with
          | none => simp at hst
          | some q =>
              obtain ⟨j', st'⟩ := q
              simp only [Option.map_some', Option.some.injEq, Prod.mk.injEq] at hst
              obtain ⟨hj, hstq⟩ := hst
              subst hj
              subst hstq
              obtain ⟨hlt, hstat, hdisj, hpre, hsuf⟩ := ihr.2.1 j' st' rfl
              refine ⟨by simpa using hlt, by simpa [nodeAt_cons_succ] using hstat,
                hdisj, ?_, ?_⟩
              · intro i hi
                cases i with
                | zero => simpa [nodeAt_cons_zero] using hnr1
                | succ i =>
                    rw [nodeAt_cons_succ]
                    exact hpre i (by omega)
              · intro i h1 h2
                cases i with
                | zero => omega
                | succ i =>
                    rw [nodeAt_cons_succ, nodeAt_cons_succ]
                    exact hsuf i (by omega) (by simpa using h2)
        · intro hnone i hi
          cases res with
          | some q => simp at hnone
          | none =>
              cases i with
              | zero => simpa [nodeAt_cons_zero] using hnr1
              | succ i =>
                  rw [nodeAt_cons_succ]
                  exact ihr.2.2 rfl i (by simpa using hi)

theorem nodeAt_take (n i : Nat) (l : List BT) (h : i < n) :
    nodeAt (l.take n) i = nodeAt l i := by
  unfold nodeAt List.getD
  rw [List.get?_take h]

theorem wt_pos (t : BT) : 0 < wt t := by
  cases t <;> simp [wt]

/-- Well-formedness of `seqStep`'s result, given that ticking preserves
well-formedness of each child in range, all children are well-formed, all
children except (possibly) the one at the resume index are RUNNING-free, and
the resume index is in range. -/
theorem seqStep_wf (m : Bool) (skip : Nat) (cs : List BT)
    (IH : ∀ c ∈ cs, wfB c = true → wfB (tick c) = true)
    (hwf : ∀ i, i < cs.length → wfB (nodeAt cs i) = true)
    (hnr : ∀ i, i < cs.length → i ≠ skip → noRunB (nodeAt cs i) = true)
    (hskip : skip < cs.length) :
    wfB (seqStep m skip cs.length cs) = true := by
  have IH' : ∀ c ∈ cs.drop skip, wfB c = true → wfB (tick c) = true :=
    fun c hc => IH c (List.mem_of_mem_drop hc)
  have hwf' : ∀ i, i < (cs.drop skip).length → wfB (nodeAt (cs.drop skip) i) = true := by
    intro i hi
    rw [nodeAt_drop]
    exact hwf (skip + i) (by simp at hi; omega)
  have hdlen : (cs.drop skip).length = cs.length - skip := List.length_drop skip cs
  rcases h0 : seqLoop 0 (cs.drop skip) with ⟨res, out0, cnt0⟩
  have W := seqLoop_wf0 (cs.drop skip) IH' hwf'
  rw [h0] at W
  simp only at W
  have holen : out0.length = cs.length - skip := by
    have := seqLoop_length 0 (cs.drop skip)
    rw [h0] at this
    simpa [hdlen] using this
  have hsk := seqLoop_skip skip cs
  rw [h0] at hsk
  simp only at hsk
  have htklen : (cs.take skip).length = skip := List.length_take_of_le (by omega)
  -- pointwise view of the assembled children
  have hOUT : ∀ idx, idx < cs.length →
      nodeAt (cs.take skip ++ out0) idx =
        if idx < skip then nodeAt cs idx else nodeAt out0 (idx - skip) := by
    intro idx hidx
    by_cases hlt : idx < skip
    · rw [if_pos hlt, nodeAt_append_left _ _ _ (by omega), nodeAt_take _ _ _ hlt]
    · rw [if_neg hlt, nodeAt_append_right _ _ _ (by omega), htklen]
  have hOUTlen : (cs.take skip ++ out0).length = cs.length := by
    simp [htklen, holen]; omega
  have hwfOUT : ∀ idx, idx < cs.length →
      wfB (nodeAt (cs.take skip ++ out0) idx) = true := by
    intro idx hidx
    rw [hOUT idx hidx]
    by_cases hlt : idx < skip
    · rw [if_pos hlt]; exact hwf idx hidx
    · rw [if_neg hlt]; exact W.1 (idx - skip) (by omega)
  unfold seqStep
  rw [hsk]
  cases res with
  | some st =>
      obtain ⟨hcnt, hstat, hpre, hsuf⟩ := W.2.1 st rfl
      simp only [wfB, Bool.and_eq_true]
      constructor
      · rw [wfL_eq_forall]
        intro i hi
        exact hwfOUT i (by omega)
      · by_cases hrun : st = Status.running
        · rw [if_pos hrun]
          simp only [Bool.and_eq_true, decide_eq_true_eq]
          refine ⟨by rw [hOUTlen]; omega, ?_⟩
          rw [othersNoRun_eq_forall]
          intro idx hidx hne
          rw [hOUTlen] at hidx
          rw [hOUT idx hidx]
          by_cases hlt : idx < skip
          · rw [if_pos hlt]
            exact hnr idx hidx (by omega)
          · rw [if_neg hlt]
            by_cases hlt2 : idx - skip < cnt0
            · exact hpre (idx - skip) hlt2
            · have hgt : cnt0 < idx - skip := by omega
              rw [hsuf (idx - skip) hgt (by omega), nodeAt_drop]
              exact hnr (skip + (idx - skip)) (by omega) (by omega)
        · rw [if_neg hrun]
          rw [noRunL_eq_forall]
          intro idx hidx
          rw [hOUTlen] at hidx
          rw [hOUT idx hidx]
          by_cases hlt : idx < skip
          · rw [if_pos hlt]
            exact hnr idx hidx (by omega)
          · rw [if_neg hlt]
            by_cases hlt2 : idx - skip < cnt0
            · exact hpre (idx - skip) hlt2
            · by_cases heq2 : idx - skip = cnt0
              · rw [heq2]
                refine noRun_of_wf_not_running _ (W.1 cnt0 (by omega)) ?_
                rw [hstat]
                exact hrun
              · have hgt : cnt0 < idx - skip := by omega
                rw [hsuf (idx - skip) hgt (by omega), nodeAt_drop]
                exact hnr (skip + (idx - skip)) (by omega) (by omega)
  | none =>
      simp only [wfB, Bool.and_eq_true]
      constructor
      · rw [wfL_eq_forall]
        intro i hi
        exact hwfOUT i (by omega)
      · rw [if_neg (by simp)]
        rw [noRunL_eq_forall]
        intro idx hidx
        rw [hOUTlen] at hidx
        rw [hOUT idx hidx]
        by_cases hlt : idx < skip
        · rw [if_pos hlt]
          exact hnr idx hidx (by omega)
        · rw [if_neg hlt]
          exact W.2.2 rfl (idx - skip) (by omega)

theorem nodeAt_map (f : BT → BT) (l : List BT) (i : Nat) (h : i < l.length) :
    nodeAt (l.map f) i = f (nodeAt l i) := by
  unfold nodeAt List.getD
  rw [List.get?_map]
  cases hg : l.get? i with
  | none => rw [List.get?_eq_none] at hg; omega
  | some c => simp

/-- Well-formedness of `selStep`'s result, given that ticking preserves
well-formedness of each child in range, all children are well-formed, all
children except (possibly) `previous` are RUNNING-free, and `previous` (when
set) is in range. -/
theorem selStep_wf (m : Bool) (prev : Option Nat) (cs : List BT)
    (IH : ∀ c ∈ cs, wfB c = true → wfB (tick c) = true)
    (hwf : ∀ i, i < cs.length → wfB (nodeAt cs i) = true)
    (hnr : ∀ i, i < cs.length → prev ≠ some i → noRunB (nodeAt cs i) = true)
    (hprev : ∀ i0, prev = some i0 → i0 < cs.length)
    (hne : cs ≠ []) :
    wfB (selStep m prev cs.length cs) = true := by
  set skip := (if m = true then prev.getD 0 else 0) with hskipdef
  have hskip : skip < cs.length := by
    rw [hskipdef]
    have hlen0 : 0 < cs.length := List.length_pos.mpr hne
    split
    · cases hp : prev with
      | none => simpa using hlen0
      | some i0 => simpa using hprev i0 hp
    · exact hlen0
  have IH' : ∀ c ∈ cs.drop skip, wfB c = true → wfB (tick c) = true :=
    fun c hc => IH c (List.mem_of_mem_drop hc)
  have hwf' : ∀ i, i < (cs.drop skip).length → wfB (nodeAt (cs.drop skip) i) = true := by
    intro i hi
    rw [nodeAt_drop]
    exact hwf (skip + i) (by simp at hi; omega)
  have hdlen : (cs.drop skip).length = cs.length - skip := List.length_drop skip cs
  rcases h0 : selLoop m 0 (cs.drop skip) with ⟨res, out0⟩
  have W := selLoop_wf0 m (cs.drop skip) IH' hwf'
  rw [h0] at W
  simp only at W
  have holen : out0.length = cs.length - skip := by
    have := selLoop_length m 0 (cs.drop skip)
    rw [h0] at this
    simpa [hdlen] using this
  have hsk := selLoop_skip m skip cs
  rw [h0] at hsk
  simp only at hsk
  have htklen : ((cs.take skip).map
      (fun c => if m = true then stop .invalid c else c)).length = skip := by
    rw [List.length_map]
    exact List.length_take_of_le (by omega)
  have hOUT : ∀ idx, idx < cs.length →
      nodeAt ((cs.take skip).map (fun c => if m = true then stop .invalid c else c)
          ++ out0) idx =
        if idx < skip then (if m = true then stop .invalid (nodeAt cs idx)
                            else nodeAt cs idx)
        else nodeAt out0 (idx - skip) := by
    intro idx hidx
    by_cases hlt : idx < skip
    · rw [if_pos hlt, nodeAt_append_left _ _ _ (by omega),
          nodeAt_map _ _ _ (by rw [List.length_take_of_le (by omega)]; omega),
          nodeAt_take _ _ _ hlt]
    · rw [if_neg hlt, nodeAt_append_right _ _ _ (by omega), htklen]
  have hOUTlen : ((cs.take skip).map
      (fun c => if m = true then stop .invalid c else c) ++ out0).length
        = cs.length := by
    simp only [List.length_append, htklen, holen]
    omega
  have hwfOUT : ∀ idx, idx < cs.length →
      wfB (nodeAt ((cs.take skip).map
        (fun c => if m = true then stop .invalid c else c) ++ out0) idx) = true := by
    intro idx hidx
    rw [hOUT idx hidx]
    by_cases hlt : idx < skip
    · rw [if_pos hlt]
      split
      · exact wf_stop_invalid _ (hwf idx hidx)
      · exact hwf idx hidx
    · rw [if_neg hlt]
      exact W.1 (idx - skip) (by omega)
  have hnrPre : ∀ idx, idx < skip →
      noRunB (nodeAt ((cs.take skip).map
        (fun c => if m = true then stop .invalid c else c) ++ out0) idx) = true := by
    intro idx hlt
    rw [hOUT idx (by omega), if_pos hlt]
    by_cases hm : m = true
    · rw [if_pos hm]
      exact noRun_stop_invalid _
    · -- memory off means skip = 0: no such index
      rw [hskipdef] at hlt
      rw [if_neg hm] at hlt
      omega
  unfold selStep
  rw [← hskipdef, hsk]
  cases res with
  | none =>
      simp only [Option.map_none']
      simp only [wfB, Bool.and_eq_true]
      constructor
      · rw [wfL_eq_forall]
        intro i hi
        exact hwfOUT i (by omega)
      · rw [if_neg (by simp)]
        rw [noRunL_eq_forall]
        intro idx hidx
        rw [hOUTlen] at hidx
        by_cases hlt : idx < skip
        · exact hnrPre idx hlt
        · rw [hOUT idx hidx, if_neg hlt]
          exact W.2.2 rfl (idx - skip) (by omega)
  | some q =>
      obtain ⟨j0, st⟩ := q
      simp only [Option.map_some']
      obtain ⟨hj0, hstat, hdisj, hpre, hsuf⟩ := W.2.1 j0 st rfl
      set J := j0 + skip with hJdef
      have hJ : J < cs.length := by omega
      -- the final children list, in both branches of the `previous` test
      have hFINlen : ∀ fin : List BT,
          (fin = ((cs.take skip).map
              (fun c => if m = true then stop .invalid c else c) ++ out0) ∨
           fin = invalidateAfter J ((cs.take skip).map
              (fun c => if m = true then stop .invalid c else c) ++ out0)) →
          fin.length = cs.length := by
        rintro fin (rfl | rfl)
        · exact hOUTlen
        · rw [length_invalidateAfter, hOUTlen]
      -- status at J in the assembled list
      have hstatJ : (nodeAt ((cs.take skip).map
          (fun c => if m = true then stop .invalid c else c) ++ out0) J).status
            = st := by
        rw [hOUT J hJ, if_neg (by omega)]
        rw [hJdef]
        simpa using hstat
      by_cases hPJ : prev = some J
      · -- no sweep: previous re-elected
        rw [if_pos hPJ]
        simp only [wfB, Bool.and_eq_true]
        constructor
        · rw [wfL_eq_forall]
          intro i hi
          exact hwfOUT i (by omega)
        · have hoth : ∀ idx, idx < cs.length → idx ≠ J →
              noRunB (nodeAt ((cs.take skip).map
                (fun c => if m = true then stop .invalid c else c) ++ out0) idx)
                  = true := by
            intro idx hidx hne2
            by_cases hlt : idx < skip
            · exact hnrPre idx hlt
            · rw [hOUT idx hidx, if_neg hlt]
              by_cases hlt2 : idx - skip < j0
              · exact hpre (idx - skip) hlt2
              · have hgt : j0 < idx - skip := by omega
                rw [hsuf (idx - skip) hgt (by omega), nodeAt_drop]
                refine hnr (skip + (idx - skip)) (by omega) ?_
                rw [hPJ]
                intro hcon
                simp only [Option.some.injEq] at hcon
                omega
          by_cases hrun : st = Status.running
          · rw [if_pos hrun]
            simp only [Bool.and_eq_true, decide_eq_true_eq]
            refine ⟨by rw [hOUTlen]; omega, ?_⟩
            rw [othersNoRun_eq_forall]
            intro idx hidx hne2
            rw [hOUTlen] at hidx
            exact hoth idx hidx hne2
          · rw [if_neg hrun]
            rw [noRunL_eq_forall]
            intro idx hidx
            rw [hOUTlen] at hidx
            by_cases hne2 : idx = J
            · rw [hne2]
              refine noRun_of_wf_not_running _ (hwfOUT J hJ) ?_
              rw [hstatJ]
              exact hrun
            · exact hoth idx hidx hne2
      · -- sweep: children after J are stopped to INVALID
        rw [if_neg hPJ]
        have hFIN : ∀ idx, idx < cs.length →
            wfB (nodeAt (invalidateAfter J ((cs.take skip).map
              (fun c => if m = true then stop .invalid c else c) ++ out0)) idx)
                = true ∧
            (idx ≠ J →
              noRunB (nodeAt (invalidateAfter J ((cs.take skip).map
                (fun c => if m = true then stop .invalid c else c) ++ out0)) idx)
                  = true) := by
          intro idx hidx
          by_cases hle : idx ≤ J
          · rw [nodeAt_invalidateAfter_le J idx _ hle]
            refine ⟨hwfOUT idx hidx, fun hne2 => ?_⟩
            have hltJ : idx < J := by omega
            by_cases hlt : idx < skip
            · exact hnrPre idx hlt
            · rw [hOUT idx hidx, if_neg hlt]
              exact hpre (idx - skip) (by omega)
          · have hgtJ : J < idx := by omega
            rw [nodeAt_invalidateAfter_gt J idx _ hgtJ (by rw [hOUTlen]; omega)]
            by_cases hinv : (nodeAt ((cs.take skip).map
                (fun c => if m = true then stop .invalid c else c) ++ out0) idx).status
                  = Status.invalid
            · rw [if_neg (fun hcon => hcon hinv)]
              refine ⟨hwfOUT idx hidx, fun _ => ?_⟩
              exact noRun_of_wf_not_running _ (hwfOUT idx hidx) (by rw [hinv]; simp)
            · rw [if_pos hinv]
              exact ⟨wf_stop_invalid _ (hwfOUT idx hidx),
                fun _ => noRun_stop_invalid _⟩
        simp only [wfB, Bool.and_eq_true]
        constructor
        · rw [wfL_eq_forall]
          intro i hi
          rw [length_invalidateAfter, hOUTlen] at hi
          exact (hFIN i hi).1
        · by_cases hrun : st = Status.running
          · rw [if_pos hrun]
            simp only [Bool.and_eq_true, decide_eq_true_eq]
            refine ⟨by rw [length_invalidateAfter, hOUTlen]; omega, ?_⟩
            rw [othersNoRun_eq_forall]
            intro idx hidx hne2
            rw [length_invalidateAfter, hOUTlen] at hidx
            exact (hFIN idx hidx).2 hne2
          · rw [if_neg hrun]
            rw [noRunL_eq_forall]
            intro idx hidx
            rw [length_invalidateAfter, hOUTlen] at hidx
            by_cases hne2 : idx = J
            · rw [hne2]
              rw [nodeAt_invalidateAfter_le J J _ (by omega)]
              refine noRun_of_wf_not_running _ (hwfOUT J hJ) ?_
              rw [hstatJ]
              exact hrun
            · exact (hFIN idx hidx).2 hne2

theorem exists_nodeAt_of_mem {c : BT} {l : List BT} (h : c ∈ l) :
    ∃ i, i < l.length ∧ nodeAt l i = c := by
  induction l with
  | nil => simp at h
  | cons x rest ih =>
      rcases List.mem_cons.mp h with h | h
      · exact ⟨0, by simp, by simp [nodeAt_cons_zero, h]⟩
      · obtain ⟨i, hi, hn⟩ := ih h
        exact ⟨i + 1, by simpa using hi, by rwa [nodeAt_cons_succ]⟩

/-- Ticking preserves the well-formedness invariant. -/
theorem tick_wf (t : BT) (h : wfB t = true) : wfB (tick t) = true := by
  suffices H : ∀ n t, wt t ≤ n → wfB t = true → wfB (tick t) = true from
    H (wt t) t le_rfl h
  intro n
  induction n with
  | zero =>
      intro t hwt _
      have := wt_pos t
      omega
  | succ n ihn =>
      intro t hwt hwf
      cases t with
      | leaf s scr => simp [tick, wfB]
      | par p s cur cs => simp [wfB] at hwf
      | deco f s c =>
          simp only [wfB, Bool.and_eq_true] at hwf
          have hwtc : wt c ≤ n := by simp [wt] at hwt; omega
          have hwfc1 : wfB (tick c) = true := ihn c hwtc hwf.1
          by_cases hr : f (tick c).status = Status.running
          · have heq : tick (.deco f s c) = .deco f .running (tick c) := by
              simp [tick, hr]
            rw [heq]
            simp [wfB, hwfc1]
          · have heq : tick (.deco f s c) = .deco f (f (tick c).status)
                (if (if f (tick c).status = Status.invalid
                     then stop .invalid (tick c) else tick c).status = Status.running
                 then stop .invalid (if f (tick c).status = Status.invalid
                     then stop .invalid (tick c) else tick c)
                 else (if f (tick c).status = Status.invalid
                     then stop .invalid (tick c) else tick c)) := by
              simp [tick, hr]
            rw [heq]
            have hwfc2 : wfB (if f (tick c).status = Status.invalid
                then stop .invalid (tick c) else tick c) = true := by
              split
              · exact wf_stop_invalid _ hwfc1
              · exact hwfc1
            simp only [wfB, Bool.and_eq_true]
            by_cases hr3 : (if f (tick c).status = Status.invalid
                then stop .invalid (tick c) else tick c).status = Status.running
            · rw [if_pos hr3]
              refine ⟨wf_stop_invalid _ hwfc2, ?_⟩
              rw [if_neg hr]
              exact noRun_stop_invalid _
            · rw [if_neg hr3]
              refine ⟨hwfc2, ?_⟩
              rw [if_neg hr]
              exact noRun_of_wf_not_running _ hwfc2 hr3
      | seq m s cur cs =>
          simp only [wfB, Bool.and_eq_true] at hwf
          have hwtl : wtl cs ≤ n := by simp [wt] at hwt; omega
          have IHcs : ∀ c ∈ cs, wfB c = true → wfB (tick c) = true :=
            fun c hc => ihn c (le_of_lt (lt_of_lt_of_le (wt_lt_of_mem hc) hwtl))
          have hwfpt := (wfL_eq_forall cs).mp hwf.1
          by_cases hcs : cs = []
          · subst hcs
            simp [tick, wfB, noRunL, wfL]
          · have heq : tick (.seq m s cur cs) =
                if cs.isEmpty then .seq m .success none []
                else if seqFresh m s then seqStep m 0 cs.length (stopNIList cs)
                else seqStep m (cur.getD 0) cs.length cs := by
              simp [tick]
            rw [heq, if_neg (by simpa [List.isEmpty_iff] using hcs)]
            by_cases hfresh : seqFresh m s = true
            · rw [if_pos hfresh]
              have hlenl := length_stopNIList cs
              rw [← hlenl]
              refine seqStep_wf m 0 (stopNIList cs) ?_ ?_ ?_ ?_
              · intro c' hc'
                obtain ⟨i, hi, hni⟩ := exists_nodeAt_of_mem hc'
                rw [hlenl] at hi
                rw [nodeAt_stopNIList cs i hi] at hni
                have hmem := nodeAt_mem cs i hi
                have hwts : wt c' ≤ n := by
                  rw [← hni]
                  have := wt_lt_of_mem hmem
                  split <;> [rw [wt_stop]; skip] <;> omega
                exact fun hw => ihn c' hwts hw
              · intro i hi
                rw [hlenl] at hi
                rw [nodeAt_stopNIList cs i hi]
                split
                · exact wf_stop_invalid _ (hwfpt i hi)
                · exact hwfpt i hi
              · intro i hi _
                rw [hlenl] at hi
                rw [nodeAt_stopNIList cs i hi]
                split
                · exact noRun_stop_invalid _
                · rename_i hinv
                  simp only [ne_eq, not_not] at hinv
                  exact noRun_of_wf_not_running _ (hwfpt i hi) (by rw [hinv]; simp)
              · rw [hlenl]
                exact List.length_pos.mpr hcs
            · rw [if_neg hfresh]
              -- not fresh: the sequence is RUNNING with memory on
              have hsrun : s = Status.running := by
                unfold seqFresh at hfresh
                by_cases hs : s = Status.running
                · exact hs
                · rw [if_neg hs] at hfresh; simp at hfresh
              rw [if_pos hsrun] at hwf
              rcases hcur : cur with _ | i0
              · rw [hcur] at hwf; simp at hwf
              · rw [hcur] at hwf
                simp only [Bool.and_eq_true, decide_eq_true_eq] at hwf
                obtain ⟨_, hi0, hoth⟩ := hwf
                simp only [Option.getD_some]
                exact seqStep_wf m i0 cs IHcs hwfpt
                  (fun i hi hne => (othersNoRun_eq_forall i0 cs).mp hoth i hi hne)
                  hi0
      | sel m s cur cs =>
          simp only [wfB, Bool.and_eq_true] at hwf
          have hwtl : wtl cs ≤ n := by simp [wt] at hwt; omega
          have IHcs : ∀ c ∈ cs, wfB c = true → wfB (tick c) = true :=
            fun c hc => ihn c (le_of_lt (lt_of_lt_of_le (wt_lt_of_mem hc) hwtl))
          have hwfpt := (wfL_eq_forall cs).mp hwf.1
          by_cases hcs : cs = []
          · subst hcs
            simp [tick, wfB, noRunL, wfL]
          · rw [tick_sel m s cur cs hcs]
            by_cases hsrun : s = Status.running
            · rw [if_pos hsrun] at hwf
              rcases hcur : cur with _ | i0
              · rw [hcur] at hwf; simp at hwf
              · rw [hcur] at hwf
                simp only [Bool.and_eq_true, decide_eq_true_eq] at hwf
                obtain ⟨_, hi0, hoth⟩ := hwf
                have hprevEq : selPrev s (some i0) = some i0 := by
                  simp [selPrev, hsrun]
                refine selStep_wf m (selPrev s (some i0)) cs IHcs hwfpt ?_ ?_ hcs
                · intro i hi hne
                  rw [hprevEq] at hne
                  refine (othersNoRun_eq_forall i0 cs).mp hoth i hi ?_
                  intro hcon
                  exact hne (by rw [hcon])
                · intro j0 hj0
                  rw [hprevEq] at hj0
                  simp only [Option.some.injEq] at hj0
                  omega
            · rw [if_neg hsrun] at hwf
              have hallnr := (noRunL_eq_forall cs).mp hwf.2
              refine selStep_wf m (selPrev s cur) cs IHcs hwfpt
                (fun i hi _ => hallnr i hi) ?_ hcs
              intro j0 hj0
              simp only [selPrev, if_neg hsrun, Option.some.injEq] at hj0
              subst hj0
              exact List.length_pos.mpr hcs

/-- C1 (corrected: restricted to trees without Parallel nodes): starting from
any freshly constructed tree (every status INVALID) containing no Parallel
node, after any sequence of root ticks and forced stops the set of RUNNING
nodes is either empty or exactly one contiguous path from the root down to a
single tip; no node outside that path is RUNNING.  (A Parallel may legally
keep several children RUNNING at once — see the counterexample.) -/
theorem single_running_path_without_parallel (t : BT) (ops : List Op)
    (hnp : noParB t = true) (hinv : allInvalidB t = true) :
    runningIsPathB (applyOps ops t) = true := by
  have hwf0 : wfB t = true := wf_of_allInvalid_noPar t hinv hnp
  have hpres : ∀ (ops' : List Op) (u : BT), wfB u = true →
      wfB (applyOps ops' u) = true := by
    intro ops'
    induction ops' with
    | nil => intro u hu; simpa [applyOps] using hu
    | cons op rest ih =>
        intro u hu
        cases op with
        | tickRoot =>
            rw [show applyOps (Op.tickRoot :: rest) u = applyOps rest (tick u) from rfl]
            exact ih _ (tick_wf u hu)
        | stopRoot =>
            rw [show applyOps (Op.stopRoot :: rest) u =
                  applyOps rest (stop .invalid u) from rfl]
            exact ih _ (wf_stop_invalid u hu)
  rcases runningIsPath_of_wf _ (hpres ops t hwf0) with h | h <;>
    simp [runningIsPathB, h]

/-- Witness for `single_running_path_without_parallel`: a memory Sequence
over two scripted leaves, ticked, force-stopped, and ticked again. -/
theorem single_running_path_witness :
    runningIsPathB (applyOps [.tickRoot, .stopRoot, .tickRoot]
      (.seq true .invalid none
        [.leaf .invalid [.running, .success], .leaf .invalid [.running]])) = true :=
  single_running_path_without_parallel
    (.seq true .invalid none
      [.leaf .invalid [.running, .success], .leaf .invalid [.running]])
    [.tickRoot, .stopRoot, .tickRoot]
    (by simp [noParB, noParL])
    (by simp [allInvalidB, allInvalidL])

end PyBT
